import Mathlib

/-! Duplicut: a verification development of `main.go`.

A shallow embedding of the duplicate-file finder and of the properties its
specification states.

* Go `string`s are Lean `String`s (a Go string is a byte sequence; the byte of
  `/` occurs in UTF-8 only as the character `/`, so cutting at the character is
  cutting at the byte), slices are `List`s, `int`s are `Int`s (or `Nat`s where
  the value is a length or a count), bytes are `Nat`s below 256.
* A Go `error` is an `Option Error`, `none` being `nil`.
* The goroutines of `search` are a state machine: a state holds the program
  point of the goroutine of line 377 and of every hashing goroutine, and the
  variables they share; an action is one step of one of them, or the user
  closing the search window.  Every interleaving is a list of actions.  A read
  buffer that cannot be allocated (line 428) ends the program.

Definitions come first (the root list, the settings, the digest, the search),
then the lemmas, then the theorems of the specification's claims.
-/

namespace Duplicut

/-! ## Library values -/

namespace strconv

/-- The two causes of a `*strconv.NumError`. -/
inductive Cause where
  | ErrSyntax
  | ErrRange
  deriving DecidableEq, Repr

end strconv

/-- A Go `error` value of this program: made by `errors.New`, or the
`*strconv.NumError` of `strconv.Atoi` (its function, its input, its cause). -/
inductive Error where
  | New (text : String)
  | NumError (Func : String) (Num : String) (Err : strconv.Cause)
  deriving DecidableEq, Repr

/-! ## Part 1: the root list -/

namespace strings

/-- Cutting a character sequence at every occurrence of `sep`: the pieces
between the separators, in order; `n` separators give `n + 1` pieces. -/
def splitChars (sep : Char) : List Char → List (List Char)
  | [] => [[]]
  | c :: cs =>
    if c = sep then [] :: splitChars sep cs
    else
      match splitChars sep cs with
      | [] => [[c]]
      | w :: ws => (c :: w) :: ws

/-- Go `strings.Split(s, sep)` for a one-character separator (the program
only calls it with `"/"`): the substrings between the separators.  A string
without the separator gives the one-element slice holding the string itself,
the empty string included. -/
def Split (s : String) (sep : Char) : List String :=
  (splitChars sep s.data).map String.mk

end strings

/-- The loop of `remove` (lines 47-51) from index `i` on, `rest` being `s[i:]`:
at the first `v == r` the result is `append(s[:i], s[i+1:]...)`. -/
def removeFrom (s : List String) (r : String) : List String → Nat → List String
  | [], _ => s
  | v :: rest, i =>
    if v = r then s.take i ++ s.drop (i + 1) else removeFrom s r rest (i + 1)

/-- The function `remove(s, r)` (lines 46-53): remove a string from a string slice. -/
def remove (s : List String) (r : String) : List String :=
  removeFrom s r s 0

/-- The loop of lines 65-69 of `validateDir` from index `i` on: `true` when an
index with `xsplit[i] != ysplit[i]` is met (the `return nil`).  An index outside
`ysplit` does not occur, `xsplit` being the shorter slice; it is read as a
mismatch. -/
def validateDir.mismatch (xsplit ysplit : List String) (i : Nat) : Nat → Bool
  | 0 => false
  | fuel + 1 =>
    if xsplit[i]? ≠ ysplit[i]? then true
    else validateDir.mismatch xsplit ysplit (i + 1) fuel

/-- The function `validateDir(x, y)` (lines 55-71). -/
def validateDir (x y : String) : Option Error :=
  let err := Error.New (y ++ "\nis, or subdirectory of, already added folder\n" ++ x)
  let xsplit := strings.Split x '/'
  let ysplit := strings.Split y '/'
  let swap := decide (xsplit.length > ysplit.length)
  let err := if swap then Error.New (y ++ "\nis a root folder of\n" ++ x) else err
  let xs := if swap then ysplit else xsplit
  let ys := if swap then xsplit else ysplit
  if validateDir.mismatch xs ys 0 xs.length then none else some err

/-- The loop of lines 161-167 of the add callback: the error of the first root
that `validateDir` rejects the candidate against, `none` when there is none. -/
def addFolder.check (path : String) : List String → Option Error
  | [] => none
  | root :: rest =>
    match validateDir root path with
    | some err => some err
    | none => addFolder.check path rest

/-- The add callback of `addFolder` (lines 159-169) for a picked folder `path`:
the error shown, if any, and the root list afterwards. -/
def addFolder.add (rootsList : List String) (path : String) :
    Option Error × List String :=
  match addFolder.check path rootsList with
  | some err => (some err, rootsList)
  | none => (none, rootsList ++ [path])

/-- The delete callback of `addFolder` (lines 189-192). -/
def addFolder.delete (rootsList : List String) (text : String) : List String :=
  remove rootsList text

/-- An action on the folder window: add a picked folder, or press the delete
button of an entry. -/
inductive RootOp where
  | add (path : String)
  | delete (text : String)
  deriving DecidableEq, Repr

/-- The root list after one action. -/
def RootOp.apply (rootsList : List String) : RootOp → List String
  | .add path => (addFolder.add rootsList path).2
  | .delete text => addFolder.delete rootsList text

/-- The root list after a sequence of actions, starting from the empty list of
`binding.NewStringList()` (line 506). -/
def rootsAfter (ops : List RootOp) : List String :=
  ops.foldl RootOp.apply []

/-- The relation of the claims: after splitting both paths on `/`, the shorter
component sequence equals the corresponding prefix of the longer one. -/
def Overlap (r c : String) : Prop :=
  let rs := strings.Split r '/'
  let cs := strings.Split c '/'
  (rs.length ≤ cs.length ∧ rs = cs.take rs.length) ∨
  (cs.length ≤ rs.length ∧ cs = rs.take cs.length)

instance (r c : String) : Decidable (Overlap r c) := by
  unfold Overlap; exact inferInstance

/-! ## Part 2: the settings -/

namespace strconv

/-- The size of a Go `int` in bits. -/
def IntSize : Nat := 64

/-- The digit loop of `strconv.ParseUint(s, 10, 64)` over the characters left,
`n` being the value so far: a character that is not a decimal digit is a syntax
error; a value that does not fit 64 bits is a range error with the largest value,
returned at once. -/
def ParseUint.loop : List Char → Nat → Nat × Option Cause
  | [], n => (n, none)
  | c :: cs, n =>
    if '0' ≤ c ∧ c ≤ '9' then
      let d := c.toNat - '0'.toNat
      if n ≥ (2 ^ 64 - 1) / 10 + 1 then (2 ^ 64 - 1, some .ErrRange)
      else
        let n10 := n * 10 % 2 ^ 64
        let n1 := (n10 + d) % 2 ^ 64
        if n1 < n10 ∨ n1 > 2 ^ 64 - 1 then (2 ^ 64 - 1, some .ErrRange)
        else ParseUint.loop cs n1
    else (0, some .ErrSyntax)

/-- The call `strconv.ParseUint(s, 10, 64)` on the characters of `s`. -/
def ParseUint (s : List Char) : Nat × Option Cause :=
  if s = [] then (0, some .ErrSyntax) else ParseUint.loop s 0

/-- The call `strconv.ParseInt(s, 10, 0)` on the characters of `s`: a sign, then
`ParseUint`, then the range of a signed `int`. -/
def ParseInt (s : List Char) : Int × Option Cause :=
  match s with
  | [] => (0, some .ErrSyntax)
  | c :: rest =>
    let neg := decide (c = '-')
    let digits := if c = '+' ∨ c = '-' then rest else s
    match ParseUint digits with
    | (_, some .ErrSyntax) => (0, some .ErrSyntax)
    | (un, _) =>
      let cutoff : Nat := 2 ^ (IntSize - 1)
      if !neg && decide (un ≥ cutoff) then ((cutoff : Int) - 1, some .ErrRange)
      else if neg && decide (un > cutoff) then (-(cutoff : Int), some .ErrRange)
      else (if neg then -(un : Int) else (un : Int), none)

/-- The digit loop of the fast path of `strconv.Atoi`. -/
def Atoi.fast : List Char → Int → Option Int
  | [], n => some n
  | c :: cs, n =>
    if '0' ≤ c ∧ c ≤ '9' then Atoi.fast cs (n * 10 + ((c.toNat - '0'.toNat : Nat) : Int))
    else none

/-- The call `strconv.Atoi(s)`: the value and the error.  Strings of 1 to 18 bytes take
the fast path (a sign, then digits, no overflow possible), the others go through
`ParseInt(s, 10, 0)`. -/
def Atoi (s : String) : Int × Option Error :=
  let sLen := s.utf8ByteSize
  if 0 < sLen ∧ sLen < 19 then
    match s.data with
    | [] => (0, some (.NumError "Atoi" s .ErrSyntax))
    | c :: rest =>
      let digits := if c = '-' ∨ c = '+' then rest else c :: rest
      if digits = [] then (0, some (.NumError "Atoi" s .ErrSyntax))
      else
        match Atoi.fast digits 0 with
        | none => (0, some (.NumError "Atoi" s .ErrSyntax))
        | some n => (if c = '-' then -n else n, none)
  else
    match ParseInt s.data with
    | (i64, some cause) => (i64, some (.NumError "Atoi" s cause))
    | (i64, none) => (i64, none)

end strconv

/-- The function `entryValidator(s)` (lines 37-43): validator for the settings entries. -/
def entryValidator (s : String) : Option Error :=
  let (i, err) := strconv.Atoi s
  if i < 1 then some (Error.New "too low") else err

/-- The two settings, the package variables `routineCount` and `bufferSize`. -/
structure Settings where
  routineCount : Int
  bufferSize : Int
  deriving DecidableEq, Repr

/-- The default settings of `main` (lines 504-505). -/
def main.defaults : Settings := { routineCount := 50, bufferSize := 32768 }

/-- The handlers of the goroutine-count entry (lines 97-108, `OnSubmitted` and
the save button alike) with `text` in the entry: `Validate()` runs the validator
on the text, and on `nil` the variable is set to `strconv.Atoi` of the text. -/
def settings.routineCountSave (st : Settings) (text : String) : Settings :=
  if entryValidator text = none then { st with routineCount := (strconv.Atoi text).1 } else st

/-- The handlers of the buffer-size entry (lines 115-126). -/
def settings.bufferSizeSave (st : Settings) (text : String) : Settings :=
  if entryValidator text = none then { st with bufferSize := (strconv.Atoi text).1 } else st

/-- An action on the settings window: submit or save one of the two entries
with the given text in it. -/
inductive SettingsOp where
  | routineCount (text : String)
  | bufferSize (text : String)
  deriving DecidableEq, Repr

/-- The settings after one action. -/
def SettingsOp.apply (st : Settings) : SettingsOp → Settings
  | .routineCount text => settings.routineCountSave st text
  | .bufferSize text => settings.bufferSizeSave st text

/-- The settings after a sequence of actions, starting from the defaults. -/
def settingsAfter (ops : List SettingsOp) : Settings :=
  ops.foldl SettingsOp.apply main.defaults

/-! ## Part 3: the digest

SHA-256 after FIPS 180-4, on bytes and 32-bit words as natural numbers. -/

namespace sha256

/-- The first 64 primes. -/
def primes : List Nat :=
  [2, 3, 5, 7, 11, 13, 17, 19, 23, 29, 31, 37, 41, 43, 47, 53, 59, 61, 67, 71, 73, 79, 83, 89,
   97, 101, 103, 107, 109, 113, 127, 131, 137, 139, 149, 151, 157, 163, 167, 173, 179, 181,
   191, 193, 197, 199, 211, 223, 227, 229, 233, 239, 241, 251, 257, 263, 269, 271, 277, 281,
   283, 293, 307, 311]

/-- The integer `k`-th root of `n` by bisection: the bits of the root from bit
`b - 1` down, `r` being the bits found so far. -/
def iroot (k n : Nat) : Nat → Nat → Nat
  | 0, r => r
  | b + 1, r => if (r + 2 ^ b) ^ k ≤ n then iroot k n b (r + 2 ^ b) else iroot k n b r

/-- The first 32 bits of the fractional part of the `k`-th root of `p`. -/
def frac32 (k p : Nat) : Nat := iroot k (p * 2 ^ (32 * k)) 36 0 % 2 ^ 32

/-- The round constants of SHA-256 (FIPS 180-4, section 4.2.2): the first 32
bits of the fractional parts of the cube roots of the first 64 primes,
`0x428a2f98` to `0xc67178f2`. -/
def K : List Nat := primes.map (frac32 3)

/-- The initial hash value (FIPS 180-4, section 5.3.3): the first 32 bits of the
fractional parts of the square roots of the first 8 primes, `0x6a09e667` to
`0x5be0cd19`. -/
def init : List Nat := (primes.take 8).map (frac32 2)

/-- Rotation of a 32-bit word to the right. -/
def rotr (x n : Nat) : Nat := ((x >>> n) ||| (x <<< (32 - n))) % 2 ^ 32

/-- Addition of 32-bit words. -/
def add32 (x y : Nat) : Nat := (x + y) % 2 ^ 32

/-- Complement of a 32-bit word. -/
def not32 (x : Nat) : Nat := x ^^^ (2 ^ 32 - 1)

/-- The padded message: the bytes, `0x80`, zeros up to 56 modulo 64, and the
bit length as 8 big-endian bytes. -/
def pad (msg : List Nat) : List Nat :=
  let bits := 8 * msg.length
  msg ++ [0x80] ++ List.replicate ((119 - msg.length % 64) % 64) 0 ++
    (List.range 8).map (fun i => (bits >>> (8 * (7 - i))) % 256)

/-- The big-endian 32-bit words of a byte sequence (four bytes each). -/
def toWords : List Nat → List Nat
  | a :: b :: c :: d :: rest => (((a * 256 + b) * 256 + c) * 256 + d) :: toWords rest
  | _ => []

/-- The message schedule: `n` more words appended to the words so far. -/
def schedule : Nat → List Nat → List Nat
  | 0, w => w
  | n + 1, w =>
    let t := w.length
    let w2 := w.getD (t - 2) 0
    let w7 := w.getD (t - 7) 0
    let w15 := w.getD (t - 15) 0
    let w16 := w.getD (t - 16) 0
    let s0 := rotr w15 7 ^^^ rotr w15 18 ^^^ (w15 >>> 3)
    let s1 := rotr w2 17 ^^^ rotr w2 19 ^^^ (w2 >>> 10)
    schedule n (w ++ [add32 (add32 (add32 s1 w7) s0) w16])

/-- The working variables `a` to `h`. -/
structure Vars where
  a : Nat
  b : Nat
  c : Nat
  d : Nat
  e : Nat
  f : Nat
  g : Nat
  h : Nat

/-- One round with the constant `k` and the schedule word `w`. -/
def round (v : Vars) (k w : Nat) : Vars :=
  let S1 := rotr v.e 6 ^^^ rotr v.e 11 ^^^ rotr v.e 25
  let ch := (v.e &&& v.f) ^^^ (not32 v.e &&& v.g)
  let t1 := add32 (add32 (add32 (add32 v.h S1) ch) k) w
  let S0 := rotr v.a 2 ^^^ rotr v.a 13 ^^^ rotr v.a 22
  let maj := (v.a &&& v.b) ^^^ (v.a &&& v.c) ^^^ (v.b &&& v.c)
  let t2 := add32 S0 maj
  { a := add32 t1 t2, b := v.a, c := v.b, d := v.c, e := add32 v.d t1, f := v.e, g := v.f,
    h := v.g }

/-- The 64 rounds over the constants and the schedule. -/
def rounds (v : Vars) : List Nat → List Nat → Vars
  | k :: ks, w :: ws => rounds (round v k w) ks ws
  | _, _ => v

/-- The compression of one 64-byte block into the hash value of eight words. -/
def compress (hs : List Nat) (block : List Nat) : List Nat :=
  let v0 : Vars :=
    { a := hs.getD 0 0, b := hs.getD 1 0, c := hs.getD 2 0, d := hs.getD 3 0,
      e := hs.getD 4 0, f := hs.getD 5 0, g := hs.getD 6 0, h := hs.getD 7 0 }
  let v := rounds v0 K (schedule 48 (toWords block))
  [add32 v0.a v.a, add32 v0.b v.b, add32 v0.c v.c, add32 v0.d v.d,
   add32 v0.e v.e, add32 v0.f v.f, add32 v0.g v.g, add32 v0.h v.h]

/-- The blocks of the padded message, one after the other (`n` blocks). -/
def blocks : Nat → List Nat → List Nat → List Nat
  | 0, hs, _ => hs
  | n + 1, hs, bytes => blocks n (compress hs (bytes.take 64)) (bytes.drop 64)

/-- The function `sha256.Sum256`: the 32 bytes of the SHA-256 digest of a byte sequence. -/
def Sum256 (msg : List Nat) : List Nat :=
  let p := pad msg
  (blocks (p.length / 64) init p).flatMap
    (fun w => [w >>> 24 % 256, w >>> 16 % 256, w >>> 8 % 256, w % 256])

end sha256

namespace hex

/-- The digits of `hex.EncodeToString`. -/
def hextable : List Char := "0123456789abcdef".data

/-- The function `hex.EncodeToString`: two lower-case hexadecimal digits for each byte. -/
def EncodeToString (src : List Nat) : String :=
  String.mk (src.flatMap (fun b => [hextable.getD (b / 16 % 16) '0', hextable.getD (b % 16) '0']))

end hex

/-! ## Part 4: the search -/

/-- An open file as the hashing goroutine sees it: the bytes from the read
offset to the end, and how the stream ends once they are read, with `io.EOF`
or (`fault`) with another read error. -/
structure File where
  data : List Nat
  fault : Bool
  deriving DecidableEq, Repr

/-- The error of a `Read`: `io.EOF` or any other. -/
inductive ReadErr where
  | EOF
  | other
  deriving DecidableEq, Repr

/-- The call `f.Read(buffer)` with a buffer of `len` bytes: the bytes read, the error,
and the file afterwards.  A buffer of length 0 reads nothing and is no error;
at the end of the bytes the read returns 0 bytes and the error; otherwise it
returns at least one byte and at most `len`, and no more than `short + 1`
(the operating system may deliver fewer bytes than asked for). -/
def File.Read (f : File) (len short : Nat) : List Nat × Option ReadErr × File :=
  if len = 0 then ([], none, f)
  else if f.data = [] then ([], some (if f.fault then .other else .EOF), f)
  else
    let n := min len (short + 1)
    (f.data.take n, none, { f with data := f.data.drop n })

/-- The largest number of bytes `make` does not refuse, `maxAlloc` of the Go
runtime on a 64-bit platform (48 address bits). -/
def runtime.maxAlloc : Nat := 2 ^ 48

/-- The allocation `make([]byte, n)` of line 428, `memory` being the bytes the
runtime can get for one buffer: the length of the buffer, or `none` when the
size is out of range or the memory is not there; the runtime then ends the
program (a panic of `makeslice`, or the fatal error of an exhausted heap). -/
def search.makeBuffer (memory n : Nat) : Option Nat :=
  if n ≤ runtime.maxAlloc ∧ n ≤ memory then some n else none

/-- The streaming digest `h` of `sha256.New()`, as the bytes written so far:
`h.Write(p)` appends `p`, `h.Sum(nil)` is the SHA-256 of the bytes. -/
abbrev Digest := List Nat

/-- What one iteration of the read loop (lines 432-448) does. -/
inductive Iter where
  /-- The flag `stopped` was set: `return` (line 434). -/
  | stop
  /-- A read error other than `io.EOF` (lines 438-442). -/
  | fail
  /-- The error is `io.EOF`: the bytes are written and the loop is left (lines 444-445). -/
  | eof (h : Digest)
  /-- No error: the bytes are written and the loop goes on (line 447). -/
  | next (f : File) (h : Digest)
  deriving DecidableEq, Repr

/-- One iteration of the read loop (lines 432-448) with the value of `stopped`
it reads, the buffer size, and the short-read bound of this `Read`. -/
def search.readIter (stopped : Bool) (bufferSize short : Nat) (f : File) (h : Digest) : Iter :=
  if stopped then .stop
  else
    match f.Read bufferSize short with
    | (bytes, some .EOF, _) => .eof (h ++ bytes)
    | (_, some .other, _) => .fail
    | (bytes, none, f') => .next f' (h ++ bytes)

/-- The read loop (lines 432-448) run on its own with `stopped` constant: the
iteration that leaves the loop, `none` when `fuel` iterations do not leave it.
The `k`-th `Read` has the short-read bound `shorts[k]` (none past the list). -/
def search.readLoop (stopped : Bool) (bufferSize : Nat) :
    Nat → List Nat → File → Digest → Option Iter
  | 0, _, _, _ => none
  | fuel + 1, shorts, f, h =>
    match search.readIter stopped bufferSize (shorts.headD bufferSize) f h with
    | .next f' h' => search.readLoop stopped bufferSize fuel shorts.tail f' h'
    | r => some r

/-- The file hash of line 451: `hex.EncodeToString(h.Sum(nil))`. -/
def search.fileHash (h : Digest) : String :=
  hex.EncodeToString (sha256.Sum256 h)

/-- How lines 427-451 end for an opened file when run on their own. -/
inductive Hashing where
  /-- The allocation of line 428 fails: the program ends. -/
  | panic
  /-- The flag `stopped` was seen: `return` (line 434). -/
  | stop
  /-- A read error other than `io.EOF` (lines 438-442). -/
  | fail
  /-- The loop was left at `io.EOF`: the file hash of line 451. -/
  | hash (fileHash : String)
  deriving DecidableEq, Repr

/-- Lines 427-451 for an opened file, run on their own with `stopped` constant:
the buffer is made, the loop reads with it, the file hash is taken from the
digest; `none` when `fuel` iterations do not leave the loop. -/
def search.hashOpened (memory : Nat) (stopped : Bool) (bufferSize fuel : Nat)
    (shorts : List Nat) (f : File) : Option Hashing :=
  match search.makeBuffer memory bufferSize with
  | none => some .panic
  | some len =>
    match search.readLoop stopped len fuel shorts f [] with
    | some .stop => some .stop
    | some .fail => some .fail
    | some (.eof h) => some (.hash (search.fileHash h))
    | _ => none

/-- The map `collisionMap` of line 392, `map[string][]string`: its keys with
their values; a key occurs once. -/
abbrev CollisionMap := List (String × List String)

/-- The expression `m[k]`: the value of the key, `nil` when the key is absent. -/
def CollisionMap.get (m : CollisionMap) (k : String) : List String :=
  match m with
  | [] => []
  | (k', v) :: rest => if k' = k then v else CollisionMap.get rest k

/-- The assignment `m[k] = v`. -/
def CollisionMap.set (m : CollisionMap) (k : String) (v : List String) : CollisionMap :=
  match m with
  | [] => [(k, v)]
  | (k', v') :: rest => if k' = k then (k, v) :: rest else (k', v') :: CollisionMap.set rest k v

/-- The keys of the map. -/
def CollisionMap.keys (m : CollisionMap) : List String := m.map Prod.fst

/-- The loop of lines 472-476 over the keys in the order `range` yields them:
the values with more than one path. -/
def search.collect (m : CollisionMap) : List String → List (List String)
  | [] => []
  | hashKey :: rest =>
    if (m.get hashKey).length > 1 then m.get hashKey :: search.collect m rest
    else search.collect m rest

/-- How a hashing goroutine ended. -/
inductive Outcome where
  /-- Through lines 454-459: the path is in the map and `finished` counted it. -/
  | hashed
  /-- Through lines 421-424 or 439-442: `errCount` counted it. -/
  | errored
  /-- Through line 434, having seen `stopped`. -/
  | aborted
  deriving DecidableEq, Repr

/-- The program point of a hashing goroutine (lines 415-460). -/
inductive Pc where
  /-- Started, before `os.Open` (line 419). -/
  | opening
  /-- At the head of the read loop (line 432) with the file and the digest. -/
  | reading (f : File) (h : Digest)
  /-- An error was met; before `mutex.Lock()` of line 421 or 439. -/
  | failing
  /-- The loop was left at `io.EOF`; before lines 451-459. -/
  | recording (h : Digest)
  /-- The body has returned; the deferred call is at `wg.Done()`. -/
  | deferred (o : Outcome)
  /-- The deferred call is at `<-guard`. -/
  | releasing (o : Outcome)
  /-- The goroutine is over. -/
  | exited (o : Outcome)
  deriving DecidableEq, Repr

/-- A hashing goroutine: its argument and its program point. -/
structure Task where
  path : String
  pc : Pc
  deriving DecidableEq, Repr

/-- The program point of the goroutine of lines 377-484. -/
inductive MainPc where
  /-- At the head of the loop of line 403, these paths left. -/
  | loop (rest : List String)
  /-- Past the check of `stopped`, at `guard <- struct{}{}` (line 411). -/
  | sending (path : String) (rest : List String)
  /-- At `wg.Wait()` (line 462). -/
  | wait
  /-- At the check of `stopped` of line 466. -/
  | check
  /-- Past line 476 or returned at line 468: `collisionGroups` is derived. -/
  | done
  /-- The program was ended by a failed allocation of line 428 in one of the
  hashing goroutines: no goroutine takes a step any more. -/
  | crashed
  deriving DecidableEq, Repr

/-- What a search is run with: the paths gathered by the walk of lines 380-389,
the two settings, the files behind the paths (`none`: `os.Open` fails), and the
bytes the runtime can get for one read buffer. -/
structure Config where
  paths : List String
  routineCount : Nat
  bufferSize : Nat
  Open : String → Option File
  memory : Nat

/-- The state of a search: the program points and the shared variables.
`guard` is the number of tokens in the channel, `wg` the counter of the wait
group, `progress` the arguments of the calls `progBarData.Set(float64(a) /
float64(b))` so far, oldest first, as the pairs `(a, b)`. -/
structure State where
  main : MainPc
  tasks : List Task
  guard : Nat
  wg : Nat
  stopped : Bool
  collisionMap : CollisionMap
  finished : Nat
  errCount : Nat
  progress : List (Nat × Nat)
  collisionGroups : List (List String)
  deriving DecidableEq, Repr

/-- The state when the goroutine of line 377 reaches the loop of line 403:
`collisionGroups` is empty (line 374), no goroutine is started. -/
def search.init (cfg : Config) : State :=
  { main := .loop cfg.paths, tasks := [], guard := 0, wg := 0, stopped := false,
    collisionMap := [], finished := 0, errCount := 0, progress := [], collisionGroups := [] }

/-- A step of the search. -/
inductive Action where
  /-- The user closes the search window or presses Quit: `stopped = true`
  (lines 348 and 363). -/
  | cancel
  /-- The goroutine of line 377 takes its next step; `order` is the order in
  which `range collisionMap` yields the keys, used at line 472 only. -/
  | main (order : List String)
  /-- The hashing goroutine started `i`-th takes its next step; `short` bounds
  the bytes of its `Read`, used at line 436 only. -/
  | task (i : Nat) (short : Nat)
  deriving DecidableEq, Repr

/-- The next step of the goroutine of lines 377-484.  A step that cannot be
taken (the channel is full, the wait group is not at zero, `order` is not an
order of the keys) leaves the state as it is. -/
def search.mainStep (cfg : Config) (s : State) (order : List String) : State :=
  match s.main with
  | .loop [] => { s with main := .wait }
  | .loop (path :: rest) =>
    if s.stopped then { s with main := .wait } else { s with main := .sending path rest }
  | .sending path rest =>
    if s.guard < cfg.routineCount then
      { s with guard := s.guard + 1, wg := s.wg + 1,
               tasks := s.tasks ++ [{ path := path, pc := .opening }], main := .loop rest }
    else s
  | .wait => if s.wg = 0 then { s with main := .check } else s
  | .check =>
    if s.stopped then { s with collisionGroups := [], main := .done }
    else if order.Perm s.collisionMap.keys then
      { s with collisionGroups := s.collisionGroups ++ search.collect s.collisionMap order,
               main := .done }
    else s
  | .done => s
  | .crashed => s

/-- The next step of a hashing goroutine at `t.pc` (lines 415-460): the new
program point and the shared variables.  The first step opens the file and,
when it opens, makes the buffer and the digest (lines 419-429); a failed
allocation ends the program.  A receive from an empty channel leaves the state
as it is. -/
def search.taskStep (cfg : Config) (s : State) (t : Task) (short : Nat) : Pc × State :=
  match t.pc with
  | .opening =>
    match cfg.Open t.path with
    | none => (.failing, s)
    | some f =>
      match search.makeBuffer cfg.memory cfg.bufferSize with
      | none => (.opening, { s with main := .crashed })
      | some _ => (.reading f [], s)
  | .reading f h =>
    match search.readIter s.stopped cfg.bufferSize short f h with
    | .stop => (.deferred .aborted, s)
    | .fail => (.failing, s)
    | .eof h' => (.recording h', s)
    | .next f' h' => (.reading f' h', s)
  | .failing => (.deferred .errored, { s with errCount := s.errCount + 1 })
  | .recording h =>
    let fileHash := search.fileHash h
    (.deferred .hashed,
      { s with collisionMap :=
                 s.collisionMap.set fileHash (s.collisionMap.get fileHash ++ [t.path]),
               finished := s.finished + 1,
               progress := s.progress ++ [(s.finished + 1 + s.errCount, cfg.paths.length)] })
  | .deferred o => (.releasing o, { s with wg := s.wg - 1 })
  | .releasing o =>
    if s.guard = 0 then (.releasing o, s) else (.exited o, { s with guard := s.guard - 1 })
  | .exited o => (.exited o, s)

/-- One step of the search while the program runs. -/
def search.next (cfg : Config) (s : State) : Action → State
  | .cancel => { s with stopped := true }
  | .main order => search.mainStep cfg s order
  | .task i short =>
    match s.tasks[i]? with
    | none => s
    | some t =>
      let (pc, s') := search.taskStep cfg s t short
      { s' with tasks := s'.tasks.set i { t with pc := pc } }

/-- One step of the search: none once the program has ended in a panic. -/
def search.step (cfg : Config) (s : State) (a : Action) : State :=
  if s.main = .crashed then s else search.next cfg s a

/-- The state after a sequence of steps. -/
def search.run (cfg : Config) (s : State) : List Action → State
  | [] => s
  | a :: rest => search.run cfg (search.step cfg s a) rest

/-- The value a progress pair stands for. -/
def progressValue (p : Nat × Nat) : ℚ := (p.1 : ℚ) / (p.2 : ℚ)

/-- The fingerprint of the file behind a path: the file hash of its content
when it opens and reads to the end, `none` otherwise. -/
def fingerprint (cfg : Config) (path : String) : Option String :=
  match cfg.Open path with
  | some f => if f.fault then none else some (search.fileHash f.data)
  | none => none

/-- The bytes of a string of ASCII characters. -/
def bytesOf (s : String) : List Nat := s.data.map Char.toNat

/-- Whether the file behind a path fails to open or fails to read with an
error other than `io.EOF`. -/
def unreadable (cfg : Config) (path : String) : Bool :=
  match cfg.Open path with
  | some f => f.fault
  | none => true

/-- How the goroutine ended, once its body has returned. -/
def Pc.outcome : Pc → Option Outcome
  | .deferred o => some o
  | .releasing o => some o
  | .exited o => some o
  | _ => none

/-- Whether the goroutine holds an admission slot: its token is in `guard`
from the send of line 411 to its receive `<-guard` of line 416. -/
def Pc.holdsSlot : Pc → Bool
  | .exited _ => false
  | _ => true

/-- Whether the goroutine has not called `wg.Done()` yet. -/
def Pc.pending : Pc → Bool
  | .releasing _ => false
  | .exited _ => false
  | _ => true

/-- The value of `stopped` an outcome stands for, and the file it goes with. -/
def OutcomeOk (cfg : Config) (stopped : Bool) (path : String) : Outcome → Prop
  | .hashed => (fingerprint cfg path).isSome = true
  | .errored => fingerprint cfg path = none
  | .aborted => stopped = true

/-- What holds of a goroutine at its program point: the digest holds the bytes
read so far, an error was met only on a file that fails, the hash to record is
the fingerprint of the file. -/
def TaskOk (cfg : Config) (stopped : Bool) (t : Task) : Prop :=
  match t.pc with
  | .opening => True
  | .reading f h =>
    ∃ f0, cfg.Open t.path = some f0 ∧ h ++ f.data = f0.data ∧ f.fault = f0.fault
  | .failing => fingerprint cfg t.path = none
  | .recording h => fingerprint cfg t.path = some (search.fileHash h)
  | .deferred o => OutcomeOk cfg stopped t.path o
  | .releasing o => OutcomeOk cfg stopped t.path o
  | .exited o => OutcomeOk cfg stopped t.path o

/-- The paths still to be started, by the program point of the goroutine of
line 377: after the loop there are some left only when it was left by `break`
(or the program has ended). -/
def MainOk (stopped : Bool) (rest : List String) : MainPc → Prop
  | .loop r => rest = r
  | .sending p r => rest = p :: r
  | .crashed => True
  | _ => stopped = false → rest = []

/-- The invariant of the counters: the goroutines started are those of a prefix
of the paths; `guard` counts the goroutines that hold a slot and is within the
capacity; `wg` counts those that have not called `wg.Done()`, none once
`wg.Wait()` has returned; `finished` and `errCount` count the goroutines that
ended in `hashed` and in `errored`; the progress pairs are over the total, in
non-decreasing order and at most the sum of the counters. -/
structure CountInv (cfg : Config) (s : State) : Prop where
  paths : ∃ rest, s.tasks.map Task.path ++ rest = cfg.paths ∧ MainOk s.stopped rest s.main
  guard_eq : s.guard = s.tasks.countP (fun t => t.pc.holdsSlot)
  guard_le : s.guard ≤ cfg.routineCount
  wg_eq : s.wg = s.tasks.countP (fun t => t.pc.pending)
  joined : s.main = .check ∨ s.main = .done → s.wg = 0
  finished_eq : s.finished = s.tasks.countP (fun t => t.pc.outcome = some .hashed)
  errCount_eq : s.errCount = s.tasks.countP (fun t => t.pc.outcome = some .errored)
  progress_sorted : (s.progress.map Prod.fst).Pairwise (fun a b => a ≤ b)
  progress_le : ∀ p ∈ s.progress, p.2 = cfg.paths.length ∧ p.1 ≤ s.finished + s.errCount

/-- The invariant of the map and of the result: a path is in the value of its
fingerprint only, and it is in the map exactly when its goroutine ended in
`hashed`; `collisionGroups` is empty until it is derived, and then it is what the
loop of line 472 collects, or empty after a cancelled search. -/
structure MapInv (cfg : Config) (s : State) : Prop where
  task_ok : ∀ t ∈ s.tasks, TaskOk cfg s.stopped t
  keys_nodup : s.collisionMap.keys.Nodup
  map_fp : ∀ k p, p ∈ s.collisionMap.get k → fingerprint cfg p = some k
  map_mem : ∀ p, (∃ k, p ∈ s.collisionMap.get k) ↔
    ∃ t ∈ s.tasks, t.path = p ∧ t.pc.outcome = some .hashed
  map_nodup : cfg.paths.Nodup → ∀ k, (s.collisionMap.get k).Nodup
  groups : (s.main ≠ .done → s.collisionGroups = []) ∧
    (s.main = .done → (s.stopped = true ∧ s.collisionGroups = []) ∨
      ∃ order, order.Perm s.collisionMap.keys ∧
        s.collisionGroups = search.collect s.collisionMap order)

/-- What holds when the search is over and was not cancelled: every path has its
goroutine, which ended in `errored` when the file is unreadable and in `hashed`
otherwise; the value of a key holds exactly the paths with that fingerprint;
`collisionGroups` is what the loop of line 472 collects. -/
structure Final (cfg : Config) (s : State) : Prop where
  tasks_paths : s.tasks.map Task.path = cfg.paths
  outcome : ∀ t ∈ s.tasks,
    t.pc.outcome = some (if unreadable cfg t.path then .errored else .hashed)
  map_iff : ∀ k p, p ∈ s.collisionMap.get k ↔ (p ∈ cfg.paths ∧ fingerprint cfg p = some k)
  groups : ∃ order, order.Perm s.collisionMap.keys ∧
    s.collisionGroups = search.collect s.collisionMap order

/-- A number of steps within which the goroutine of a path is over when its
steps are taken with `stopped` unset and a buffer of at least one byte. -/
def search.taskFuel (cfg : Config) (path : String) : Nat :=
  match cfg.Open path with
  | some f => f.data.length + 5
  | none => 4

/-- A bound on the steps a goroutine has left, by its program point. -/
def stepsLeft (cfg : Config) (t : Task) : Nat :=
  match t.pc with
  | .opening => search.taskFuel cfg t.path
  | .reading f _ => f.data.length + 4
  | .failing => 3
  | .recording _ => 3
  | .deferred _ => 2
  | .releasing _ => 1
  | .exited _ => 0

/-- The schedule that starts the goroutines of the paths one at a time, `i`
being the index of the next one, and runs each to its end before the next. -/
def search.seqFrom (cfg : Config) (i : Nat) : List String → List Action
  | [] => []
  | path :: rest =>
    [Action.main [], Action.main []] ++
      List.replicate (search.taskFuel cfg path) (Action.task i cfg.bufferSize) ++
      search.seqFrom cfg (i + 1) rest

/-- The schedule of a whole search without cancellation, one goroutine at a
time; the last step ranges over the map in the order of its keys. -/
def search.sequential (cfg : Config) : List Action :=
  let acts := search.seqFrom cfg 0 cfg.paths ++ [Action.main [], Action.main []]
  acts ++ [Action.main (search.run cfg (search.init cfg) acts).collisionMap.keys]

/-! ## Part 5: the scenarios of the specification -/

/-- Scenario A: one root with three files of content `hello`, `hello`, `world`. -/
def scenarioA : Config :=
  { paths := ["/r/a", "/r/b", "/r/c"], routineCount := 2, bufferSize := 4,
    Open := fun p =>
      if p = "/r/a" then some { data := bytesOf "hello", fault := false }
      else if p = "/r/b" then some { data := bytesOf "hello", fault := false }
      else if p = "/r/c" then some { data := bytesOf "world", fault := false }
      else none,
    memory := 2 ^ 30 }

/-- The file hash of `hello`. -/
def scenarioA.hello : String :=
  "2cf24dba5fb0a30e26e83b2ac5b9e29e1b161e5c1fa7425e73043362938b9824"

/-- The file hash of `world`. -/
def scenarioA.world : String :=
  "486ea46224d1bb4fb680f34f7c9ad96a8f24ec88be73ea8e5a6c65260e9cb8a7"

/-- An interleaving of scenario A: the first two goroutines run side by side
(the second records first), the third starts when a slot is free; the range of
line 472 meets the key of `world` first. -/
def scenarioA.schedule : List Action :=
  [.main [], .main [], .main [], .main [], .main [], .main [],
   .task 1 9, .task 0 9, .task 1 0, .task 0 9, .task 1 9, .task 0 9, .task 1 9, .task 1 9,
   .task 1 9, .task 1 9, .task 1 9,
   .main [], .main [], .task 0 9, .task 0 9, .task 0 9,
   .task 2 9, .task 0 9, .task 2 9, .task 2 9, .task 2 9, .task 2 9, .task 2 9, .task 2 9,
   .task 2 9, .main [], .main [], .main [],
   .main [scenarioA.world, scenarioA.hello]]

/-- The state at the end of `scenarioA.schedule`. -/
def scenarioA.final : State :=
  { main := .done,
    tasks := [{ path := "/r/a", pc := .exited .hashed }, { path := "/r/b", pc := .exited .hashed },
              { path := "/r/c", pc := .exited .hashed }],
    guard := 0, wg := 0, stopped := false,
    collisionMap := [(scenarioA.hello, ["/r/b", "/r/a"]), (scenarioA.world, ["/r/c"])],
    finished := 3, errCount := 0, progress := [(1, 3), (2, 3), (3, 3)],
    collisionGroups := [["/r/b", "/r/a"]] }

/-- The steps of scenario A up to the moment both `hello` files are recorded. -/
def scenarioA.beforeCancel : List Action :=
  [.main [], .main [], .main [], .main [],
   .task 1 9, .task 0 9, .task 1 0, .task 0 9, .task 1 9, .task 0 9, .task 1 9, .task 0 9,
   .task 0 9, .task 1 9]

/-- The steps of scenario A after the window was closed at that moment. -/
def scenarioA.afterCancel : List Action :=
  [.main [], .task 0 9, .task 1 9, .task 0 9, .task 1 9, .main [], .main [scenarioA.hello]]

/-- The state at the end of the cancelled search of scenario A. -/
def scenarioA.cancelled : State :=
  { main := .done,
    tasks := [{ path := "/r/a", pc := .exited .hashed }, { path := "/r/b", pc := .exited .hashed }],
    guard := 0, wg := 0, stopped := true,
    collisionMap := [(scenarioA.hello, ["/r/a", "/r/b"])],
    finished := 2, errCount := 0, progress := [(1, 3), (2, 3)],
    collisionGroups := [] }

/-- The steps of scenario C. -/
def scenarioC.schedule : List Action :=
  [.main [], .main [], .task 0 0, .task 0 0, .task 0 0, .task 0 0, .main [], .main [], .main []]

/-- Scenario A with the largest buffer size the settings window accepts. -/
def scenarioHuge : Config := { scenarioA with bufferSize := 9223372036854775807 }

/-! ## Theorems, part 1: the root list -/

theorem removeFrom_eq (s : List String) (r : String) :
    ∀ (rest pre : List String), s = pre ++ rest → r ∉ pre →
      removeFrom s r rest pre.length = pre ++ rest.erase r := by
  intro rest
  induction rest with
  | nil => intro pre hs _; simp [removeFrom, hs]
  | cons v rest ih =>
    intro pre hs hpre
    unfold removeFrom
    by_cases hv : v = r
    · subst hv
      simp [hs]
    · have h1 : s = (pre ++ [v]) ++ rest := by simp [hs]
      have h2 : r ∉ pre ++ [v] := by
        simp only [List.mem_append, List.mem_singleton, not_or]
        exact ⟨hpre, fun h => hv h.symm⟩
      have := ih (pre ++ [v]) h1 h2
      simp only [List.length_append, List.length_singleton] at this
      rw [if_neg hv, this]
      simp [List.erase_cons_tail, hv]

theorem remove_eq_erase (s : List String) (r : String) : remove s r = s.erase r := by
  have := removeFrom_eq s r s [] (by simp) (by simp)
  simpa [remove] using this

theorem mismatch_false_iff (xs ys : List String) :
    ∀ (fuel i : Nat), validateDir.mismatch xs ys i fuel = false ↔
      ∀ j, i ≤ j → j < i + fuel → xs[j]? = ys[j]? := by
  intro fuel
  induction fuel with
  | zero => intro i; simp [validateDir.mismatch]; intro j h1 h2; omega
  | succ n ih =>
    intro i
    unfold validateDir.mismatch
    by_cases h : xs[i]? = ys[i]?
    · simp only [ne_eq, h, not_true_eq_false, if_false, ih]
      constructor
      · intro hh j h1 h2
        rcases Nat.eq_or_lt_of_le h1 with e | l
        · subst e; exact h
        · exact hh j l (by omega)
      · intro hh j h1 h2
        exact hh j (by omega) (by omega)
    · simp only [ne_eq, h, not_false_eq_true, if_true]
      constructor
      · intro hh; cases hh
      · intro hh; exact absurd (hh i (le_refl _) (by omega)) h

theorem eq_take_iff (xs ys : List String) :
    (∀ j, j < xs.length → xs[j]? = ys[j]?) ↔ xs = ys.take xs.length := by
  constructor
  · intro h
    apply List.ext_getElem?
    intro j
    by_cases hj : j < xs.length
    · rw [List.getElem?_take_of_lt hj]; exact h j hj
    · have : xs.length ≤ j := by omega
      rw [List.getElem?_eq_none this, List.getElem?_eq_none]
      simp [List.length_take]; omega
  · intro h j hj
    conv_lhs => rw [h]
    rw [List.getElem?_take_of_lt hj]

theorem validateDir_isSome_iff (x y : String) :
    (validateDir x y).isSome = true ↔ Overlap x y := by
  unfold validateDir Overlap
  simp only
  by_cases hs : (strings.Split x '/').length > (strings.Split y '/').length
  · simp only [hs, decide_True, if_true]
    have hle : (strings.Split y '/').length ≤ (strings.Split x '/').length := by omega
    have hm := mismatch_false_iff (strings.Split y '/') (strings.Split x '/')
      (strings.Split y '/').length 0
    simp only [Nat.zero_le, Nat.zero_add, true_implies] at hm
    rw [eq_take_iff] at hm
    cases hmm : validateDir.mismatch (strings.Split y '/') (strings.Split x '/') 0
      (strings.Split y '/').length
    · simp only [Bool.false_eq_true, if_false, Option.isSome_some, true_iff]
      exact Or.inr ⟨hle, hm.1 hmm⟩
    · simp only [if_true, Option.isSome_none, Bool.false_eq_true, false_iff]
      rintro (⟨h1, _⟩ | ⟨_, h2⟩)
      · omega
      · rw [hm.2 h2] at hmm; cases hmm
  · simp only [hs, decide_False, Bool.false_eq_true, if_false]
    have hle : (strings.Split x '/').length ≤ (strings.Split y '/').length := by omega
    have hm := mismatch_false_iff (strings.Split x '/') (strings.Split y '/')
      (strings.Split x '/').length 0
    simp only [Nat.zero_le, Nat.zero_add, true_implies] at hm
    rw [eq_take_iff] at hm
    cases hmm : validateDir.mismatch (strings.Split x '/') (strings.Split y '/') 0
      (strings.Split x '/').length
    · simp only [Bool.false_eq_true, if_false, Option.isSome_some, true_iff]
      exact Or.inl ⟨hle, hm.1 hmm⟩
    · simp only [if_true, Option.isSome_none, Bool.false_eq_true, false_iff]
      rintro (⟨_, h2⟩ | ⟨h1, h2⟩)
      · rw [hm.2 h2] at hmm; cases hmm
      · have hl : (strings.Split x '/').length = (strings.Split y '/').length := by omega
        have h3 : strings.Split y '/' = strings.Split x '/' := by
          rw [← hl, List.take_length] at h2; exact h2
        have h4 : strings.Split x '/' =
            (strings.Split y '/').take (strings.Split x '/').length := by
          rw [h3, List.take_length]
        rw [hm.2 h4] at hmm; cases hmm

theorem overlap_symm {a b : String} (h : Overlap a b) : Overlap b a := by
  unfold Overlap at *
  simp only at *
  exact h.symm

theorem overlap_refl (a : String) : Overlap a a := by
  unfold Overlap
  simp

theorem check_isSome_iff (path : String) (roots : List String) :
    (addFolder.check path roots).isSome = true ↔ ∃ r ∈ roots, Overlap r path := by
  induction roots with
  | nil => simp [addFolder.check]
  | cons root rest ih =>
    unfold addFolder.check
    cases hv : validateDir root path with
    | some err =>
      have : Overlap root path := (validateDir_isSome_iff root path).1 (by simp [hv])
      simp only [Option.isSome_some, List.mem_cons, true_iff]
      exact ⟨root, Or.inl rfl, this⟩
    | none =>
      have hn : ¬ Overlap root path := fun h => by
        have := (validateDir_isSome_iff root path).2 h
        simp [hv] at this
      simp only [ih, List.mem_cons]
      constructor
      · rintro ⟨r, hr, ho⟩; exact ⟨r, Or.inr hr, ho⟩
      · rintro ⟨r, hr | hr, ho⟩
        · subst hr; exact absurd ho hn
        · exact ⟨r, hr, ho⟩

theorem add_eq (roots : List String) (c : String) :
    (addFolder.check c roots = none → addFolder.add roots c = (none, roots ++ [c])) ∧
    (∀ err, addFolder.check c roots = some err → addFolder.add roots c = (some err, roots)) := by
  unfold addFolder.add
  constructor
  · intro h; rw [h]
  · intro err h; rw [h]

theorem pairwise_remove {R : String → String → Prop} (s : List String) (r : String)
    (h : s.Pairwise R) : (remove s r).Pairwise R := by
  rw [remove_eq_erase]
  exact h.sublist (List.erase_sublist r s)

theorem rootOp_apply_pairwise (roots : List String) (op : RootOp)
    (h : roots.Pairwise (fun a b => ¬ Overlap a b)) :
    (RootOp.apply roots op).Pairwise (fun a b => ¬ Overlap a b) := by
  cases op with
  | add path =>
    show ((addFolder.add roots path).2).Pairwise _
    cases hc : addFolder.check path roots with
    | some err => rw [(add_eq roots path).2 err hc]; exact h
    | none =>
      rw [(add_eq roots path).1 hc]
      show (roots ++ [path]).Pairwise _
      rw [List.pairwise_append]
      refine ⟨h, List.pairwise_singleton _ _, ?_⟩
      intro a ha b hb ho
      rw [List.mem_singleton] at hb
      subst hb
      have := (check_isSome_iff b roots).2 ⟨a, ha, ho⟩
      simp [hc] at this
  | delete text => exact pairwise_remove roots text h

theorem foldl_apply_pairwise (ops : List RootOp) :
    ∀ roots : List String, roots.Pairwise (fun a b => ¬ Overlap a b) →
      (ops.foldl RootOp.apply roots).Pairwise (fun a b => ¬ Overlap a b) := by
  induction ops with
  | nil => intro roots h; exact h
  | cons op ops ih =>
    intro roots h
    exact ih _ (rootOp_apply_pairwise roots op h)

theorem rootsAfter_pairwise (ops : List RootOp) :
    (rootsAfter ops).Pairwise (fun a b => ¬ Overlap a b) :=
  foldl_apply_pairwise ops [] List.Pairwise.nil

theorem pairwise_getElem? {R : String → String → Prop} (hsymm : ∀ a b, R a b → R b a)
    {l : List String} (h : l.Pairwise R) {i j : Nat} {a b : String}
    (hi : l[i]? = some a) (hj : l[j]? = some b) (hij : i ≠ j) : R a b := by
  rw [List.pairwise_iff_getElem] at h
  obtain ⟨hi', rfl⟩ := List.getElem?_eq_some.1 hi
  obtain ⟨hj', rfl⟩ := List.getElem?_eq_some.1 hj
  rcases Nat.lt_or_gt_of_ne hij with l1 | l1
  · exact h i j hi' hj' l1
  · exact hsymm _ _ (h j i hj' hi' l1)

/-! ## Lemmas, part 2: the settings -/

theorem entryValidator_eq_none_iff (s : String) :
    entryValidator s = none ↔ ((strconv.Atoi s).2 = none ∧ 1 ≤ (strconv.Atoi s).1) := by
  unfold entryValidator
  rcases h : strconv.Atoi s with ⟨i, err⟩
  by_cases hi : i < 1
  · simp only [hi, if_true]
    constructor
    · intro h'; cases h'
    · rintro ⟨_, h2⟩; omega
  · simp only [hi, if_false]
    constructor
    · intro h'; exact ⟨h', by omega⟩
    · rintro ⟨h1, _⟩; exact h1

theorem settingsOp_apply_ge (st : Settings) (op : SettingsOp)
    (h : 1 ≤ st.routineCount ∧ 1 ≤ st.bufferSize) :
    1 ≤ (SettingsOp.apply st op).routineCount ∧ 1 ≤ (SettingsOp.apply st op).bufferSize := by
  cases op with
  | routineCount text =>
    show 1 ≤ (settings.routineCountSave st text).routineCount ∧
      1 ≤ (settings.routineCountSave st text).bufferSize
    unfold settings.routineCountSave
    by_cases hv : entryValidator text = none
    · rw [if_pos hv]
      exact ⟨((entryValidator_eq_none_iff text).1 hv).2, h.2⟩
    · rw [if_neg hv]; exact h
  | bufferSize text =>
    show 1 ≤ (settings.bufferSizeSave st text).routineCount ∧
      1 ≤ (settings.bufferSizeSave st text).bufferSize
    unfold settings.bufferSizeSave
    by_cases hv : entryValidator text = none
    · rw [if_pos hv]
      exact ⟨h.1, ((entryValidator_eq_none_iff text).1 hv).2⟩
    · rw [if_neg hv]; exact h

theorem foldl_settings_ge (ops : List SettingsOp) :
    ∀ st : Settings, 1 ≤ st.routineCount ∧ 1 ≤ st.bufferSize →
      1 ≤ (ops.foldl SettingsOp.apply st).routineCount ∧
        1 ≤ (ops.foldl SettingsOp.apply st).bufferSize := by
  induction ops with
  | nil => intro st h; exact h
  | cons op ops ih => intro st h; exact ih _ (settingsOp_apply_ge st op h)

/-! ## Lemmas, part 3: the read loop -/

theorem readIter_empty (bufferSize short : Nat) (f : File) (h : Digest)
    (hB : 1 ≤ bufferSize) (hd : f.data = []) :
    search.readIter false bufferSize short f h = if f.fault then .fail else .eof h := by
  have hB' : bufferSize ≠ 0 := by omega
  cases hf : f.fault <;> simp [search.readIter, File.Read, hB', hd, hf]

theorem readIter_nonempty (bufferSize short : Nat) (f : File) (h : Digest)
    (hB : 1 ≤ bufferSize) (hd : f.data ≠ []) :
    search.readIter false bufferSize short f h =
      .next { f with data := f.data.drop (min bufferSize (short + 1)) }
        (h ++ f.data.take (min bufferSize (short + 1))) := by
  have hB' : bufferSize ≠ 0 := by omega
  simp [search.readIter, File.Read, hB', hd]

theorem readLoop_ends (bufferSize : Nat) (hB : 1 ≤ bufferSize) :
    ∀ (fuel : Nat) (shorts : List Nat) (f : File) (h : Digest),
      f.data.length + 1 ≤ fuel →
      search.readLoop false bufferSize fuel shorts f h =
        some (if f.fault then .fail else .eof (h ++ f.data)) := by
  intro fuel
  induction fuel with
  | zero => intro shorts f h hf; omega
  | succ n ih =>
    intro shorts f h hf
    unfold search.readLoop
    by_cases hd : f.data = []
    · rw [readIter_empty _ _ f h hB hd]
      cases hfa : f.fault <;> simp [hd]
    · rw [readIter_nonempty _ _ f h hB hd]
      simp only
      have hpos : 0 < f.data.length := List.length_pos.2 hd
      have hlen : (f.data.drop (min bufferSize (shorts.headD bufferSize + 1))).length + 1 ≤ n := by
        rw [List.length_drop]
        have : 1 ≤ min bufferSize (shorts.headD bufferSize + 1) := by
          apply Nat.le_min.2; exact ⟨hB, by omega⟩
        omega
      rw [ih shorts.tail _ _ hlen]
      simp [List.append_assoc, List.take_append_drop]

theorem readLoop_zero_buffer (stopped : Bool) :
    ∀ (fuel : Nat) (shorts : List Nat) (f : File) (h : Digest),
      stopped = false → search.readLoop stopped 0 fuel shorts f h = none := by
  intro fuel
  induction fuel with
  | zero => intro shorts f h _; rfl
  | succ n ih =>
    intro shorts f h hs
    subst hs
    unfold search.readLoop
    simp only [search.readIter, File.Read, if_true, Bool.false_eq_true, if_false,
      List.append_nil]
    exact ih shorts.tail f h rfl

theorem makeBuffer_ok (memory n : Nat) (h1 : n ≤ runtime.maxAlloc) (h2 : n ≤ memory) :
    search.makeBuffer memory n = some n := by
  simp [search.makeBuffer, h1, h2]

theorem makeBuffer_none (memory n : Nat) (h : runtime.maxAlloc < n ∨ memory < n) :
    search.makeBuffer memory n = none := by
  unfold search.makeBuffer
  rw [if_neg]
  rintro ⟨h1, h2⟩
  omega

theorem hashOpened_panic (memory : Nat) (stopped : Bool) (n fuel : Nat) (shorts : List Nat)
    (f : File) (h : runtime.maxAlloc < n ∨ memory < n) :
    search.hashOpened memory stopped n fuel shorts f = some .panic := by
  simp [search.hashOpened, makeBuffer_none memory n h]

/-! ## Lemmas, part 4: the invariant of the counters -/

theorem countP_set_add (p : Task → Bool) :
    ∀ (l : List Task) (i : Nat) (a b : Task), l[i]? = some a →
      (l.set i b).countP p + (if p a then 1 else 0) = l.countP p + (if p b then 1 else 0) := by
  intro l
  induction l with
  | nil => intro i a b h; simp at h
  | cons x xs ih =>
    intro i a b h
    cases i with
    | zero =>
      simp only [List.getElem?_cons_zero, Option.some.injEq] at h
      subst h
      simp only [List.set_cons_zero, List.countP_cons]
      omega
    | succ n =>
      simp only [List.getElem?_cons_succ] at h
      have := ih n a b h
      simp only [List.set_cons_succ, List.countP_cons]
      omega

theorem map_path_set (l : List Task) (i : Nat) (a : Task) (pc : Pc) (h : l[i]? = some a) :
    (l.set i { a with pc := pc }).map Task.path = l.map Task.path := by
  induction l generalizing i with
  | nil => simp
  | cons x xs ih =>
    cases i with
    | zero =>
      simp only [List.getElem?_cons_zero, Option.some.injEq] at h
      subst h
      simp
    | succ n =>
      simp only [List.getElem?_cons_succ] at h
      simp [ih n h]

theorem mem_set_cases (l : List Task) (i : Nat) (b x : Task) (h : x ∈ l.set i b) :
    x = b ∨ x ∈ l := by
  rcases List.mem_or_eq_of_mem_set h with h | h
  · exact Or.inr h
  · exact Or.inl h

theorem mem_cases_set (l : List Task) (i : Nat) (a b x : Task) (h : l[i]? = some a)
    (hx : x ∈ l) : x = a ∨ x ∈ l.set i b := by
  induction l generalizing i with
  | nil => simp at hx
  | cons y ys ih =>
    cases i with
    | zero =>
      simp only [List.getElem?_cons_zero, Option.some.injEq] at h
      subst h
      rcases List.mem_cons.1 hx with e | m
      · exact Or.inl e
      · exact Or.inr (by simp [m])
    | succ n =>
      simp only [List.getElem?_cons_succ] at h
      rcases List.mem_cons.1 hx with e | m
      · exact Or.inr (by simp [e])
      · rcases ih n h m with e | m'
        · exact Or.inl e
        · exact Or.inr (by simp [m'])

theorem mem_set_self (l : List Task) (i : Nat) (a b : Task) (h : l[i]? = some a) :
    b ∈ l.set i b := by
  obtain ⟨hi, _⟩ := List.getElem?_eq_some.1 h
  exact List.mem_set l i hi b

theorem countInv_init (cfg : Config) : CountInv cfg (search.init cfg) where
  paths := ⟨cfg.paths, by simp [search.init], by simp [search.init, MainOk]⟩
  guard_eq := by simp [search.init]
  guard_le := by simp [search.init]
  wg_eq := by simp [search.init]
  joined := by simp [search.init]
  finished_eq := by simp [search.init]
  errCount_eq := by simp [search.init]
  progress_sorted := by simp [search.init]
  progress_le := by simp [search.init]

theorem countInv_cancel (cfg : Config) (s : State) (h : CountInv cfg s) :
    CountInv cfg { s with stopped := true } where
  paths := by
    obtain ⟨rest, h1, h2⟩ := h.paths
    refine ⟨rest, h1, ?_⟩
    show MainOk true rest s.main
    cases hm : s.main <;> simp_all [MainOk]
  guard_eq := h.guard_eq
  guard_le := h.guard_le
  wg_eq := h.wg_eq
  joined := h.joined
  finished_eq := h.finished_eq
  errCount_eq := h.errCount_eq
  progress_sorted := h.progress_sorted
  progress_le := h.progress_le

theorem countInv_main (cfg : Config) (s : State) (order : List String) (h : CountInv cfg s) :
    CountInv cfg (search.mainStep cfg s order) := by
  obtain ⟨rest, hp1, hp2⟩ := h.paths
  unfold search.mainStep
  split
  · -- loop []
    rename_i hm
    rw [hm] at hp2
    exact { h with
      paths := ⟨rest, hp1, by intro _; exact hp2⟩
      joined := by simp }
  · -- loop (path :: rest)
    rename_i path r hm
    rw [hm] at hp2
    by_cases hs : s.stopped = true
    · rw [if_pos hs]
      exact { h with
        paths := ⟨rest, hp1, by intro hf; simp [show s.stopped = true from hs] at hf⟩
        joined := by simp }
    · rw [if_neg hs]
      exact { h with
        paths := ⟨rest, hp1, hp2⟩
        joined := by simp }
  · -- at the send
    rename_i path r hm
    rw [hm] at hp2
    by_cases hg : s.guard < cfg.routineCount
    · rw [if_pos hg]
      exact {
        paths := ⟨r, by
          simp only [MainOk] at hp2
          simp only [List.map_append, List.map_cons, List.map_nil, List.append_assoc,
            List.singleton_append]
          rw [← hp2]; exact hp1, rfl⟩
        guard_eq := by simp [List.countP_append, Pc.holdsSlot, h.guard_eq]
        guard_le := hg
        wg_eq := by simp [List.countP_append, Pc.pending, h.wg_eq]
        joined := by simp
        finished_eq := by simp [List.countP_append, Pc.outcome, h.finished_eq]
        errCount_eq := by simp [List.countP_append, Pc.outcome, h.errCount_eq]
        progress_sorted := h.progress_sorted
        progress_le := h.progress_le }
    · rw [if_neg hg]; exact h
  · -- wait
    rename_i hm
    rw [hm] at hp2
    by_cases hw : s.wg = 0
    · rw [if_pos hw]
      exact { h with
        paths := ⟨rest, hp1, hp2⟩
        joined := fun _ => hw }
    · rw [if_neg hw]; exact h
  · -- check
    rename_i hm
    rw [hm] at hp2
    have hw : s.wg = 0 := h.joined (Or.inl hm)
    by_cases hs : s.stopped = true
    · rw [if_pos hs]
      exact { h with
        paths := ⟨rest, hp1, hp2⟩
        joined := fun _ => hw }
    · rw [if_neg hs]
      by_cases ho : order.Perm s.collisionMap.keys
      · rw [if_pos ho]
        exact { h with
          paths := ⟨rest, hp1, hp2⟩
          joined := fun _ => hw }
      · rw [if_neg ho]; exact h
  · exact h
  · exact h

theorem set_self_of_getElem? (l : List Task) (i : Nat) (a : Task) (h : l[i]? = some a) :
    l.set i a = l := by
  induction l generalizing i with
  | nil => rfl
  | cons x xs ih =>
    cases i with
    | zero =>
      simp only [List.getElem?_cons_zero, Option.some.injEq] at h
      simp [h]
    | succ n =>
      simp only [List.getElem?_cons_succ] at h
      simp [ih n h]

/-- The end of the program keeps the invariant of the counters. -/
theorem countInv_crash (cfg : Config) (s s' : State) (h : CountInv cfg s)
    (hmain : s'.main = .crashed) (htasks : s'.tasks = s.tasks) (hguard : s'.guard = s.guard)
    (hwg : s'.wg = s.wg) (hfin : s'.finished = s.finished) (herr : s'.errCount = s.errCount)
    (hprog : s'.progress = s.progress) : CountInv cfg s' where
  paths := by
    obtain ⟨rest, h1, _⟩ := h.paths
    exact ⟨rest, by rw [htasks]; exact h1, by rw [hmain]; trivial⟩
  guard_eq := by rw [hguard, htasks]; exact h.guard_eq
  guard_le := by rw [hguard]; exact h.guard_le
  wg_eq := by rw [hwg, htasks]; exact h.wg_eq
  joined := by rw [hmain]; simp
  finished_eq := by rw [hfin, htasks]; exact h.finished_eq
  errCount_eq := by rw [herr, htasks]; exact h.errCount_eq
  progress_sorted := by rw [hprog]; exact h.progress_sorted
  progress_le := by rw [hprog, hfin, herr]; exact h.progress_le

theorem countP_pos_of_getElem? (p : Task → Bool) (l : List Task) (i : Nat) (a : Task)
    (h : l[i]? = some a) (hp : p a = true) : 0 < l.countP p := by
  obtain ⟨hi, rfl⟩ := List.getElem?_eq_some.1 h
  exact List.countP_pos_iff.2 ⟨_, List.getElem_mem hi, hp⟩

/-- A step of a goroutine keeps the invariant of the counters when each counter
moves with the program point of the goroutine. -/
theorem countInv_move (cfg : Config) (s s' : State) (h : CountInv cfg s)
    (i : Nat) (t : Task) (pc' : Pc) (ht : s.tasks[i]? = some t)
    (hmain : s'.main = s.main) (hst : s'.stopped = s.stopped)
    (htasks : s'.tasks = s.tasks.set i { t with pc := pc' })
    (hguard : s'.guard + (if t.pc.holdsSlot then 1 else 0) =
      s.guard + (if pc'.holdsSlot then 1 else 0))
    (hgle : s'.guard ≤ s.guard)
    (hwg : s'.wg + (if t.pc.pending then 1 else 0) = s.wg + (if pc'.pending then 1 else 0))
    (hwle : s'.wg ≤ s.wg)
    (hfin : s'.finished + (if t.pc.outcome = some .hashed then 1 else 0) =
      s.finished + (if pc'.outcome = some .hashed then 1 else 0))
    (hfle : s.finished ≤ s'.finished)
    (herr : s'.errCount + (if t.pc.outcome = some .errored then 1 else 0) =
      s.errCount + (if pc'.outcome = some .errored then 1 else 0))
    (hele : s.errCount ≤ s'.errCount)
    (hprog : s'.progress = s.progress ∨
      s'.progress = s.progress ++ [(s'.finished + s'.errCount, cfg.paths.length)]) :
    CountInv cfg s' where
  paths := by
    obtain ⟨rest, h1, h2⟩ := h.paths
    refine ⟨rest, ?_, ?_⟩
    · rw [htasks, map_path_set _ _ _ _ ht]; exact h1
    · rw [hmain, hst]; exact h2
  guard_eq := by
    have := countP_set_add (fun t => t.pc.holdsSlot) s.tasks i t { t with pc := pc' } ht
    have := h.guard_eq
    rw [htasks]
    simp only at *
    omega
  guard_le := le_trans hgle h.guard_le
  wg_eq := by
    have := countP_set_add (fun t => t.pc.pending) s.tasks i t { t with pc := pc' } ht
    have := h.wg_eq
    rw [htasks]
    simp only at *
    omega
  joined := by
    intro hm
    rw [hmain] at hm
    have := h.joined hm
    omega
  finished_eq := by
    have := countP_set_add (fun t => decide (t.pc.outcome = some .hashed)) s.tasks i t
      { t with pc := pc' } ht
    have := h.finished_eq
    rw [htasks]
    simp only [decide_eq_true_eq] at *
    omega
  errCount_eq := by
    have := countP_set_add (fun t => decide (t.pc.outcome = some .errored)) s.tasks i t
      { t with pc := pc' } ht
    have := h.errCount_eq
    rw [htasks]
    simp only [decide_eq_true_eq] at *
    omega
  progress_sorted := by
    rcases hprog with e | e
    · rw [e]; exact h.progress_sorted
    · rw [e, List.map_append, List.pairwise_append]
      refine ⟨h.progress_sorted, by simp, ?_⟩
      intro a ha b hb
      simp only [List.map_cons, List.map_nil, List.mem_singleton] at hb
      obtain ⟨p, hp, rfl⟩ := List.mem_map.1 ha
      have := (h.progress_le p hp).2
      omega
  progress_le := by
    intro p hp
    rcases hprog with e | e
    · rw [e] at hp
      have := h.progress_le p hp
      exact ⟨this.1, by omega⟩
    · rw [e, List.mem_append, List.mem_singleton] at hp
      rcases hp with hp | hp
      · have := h.progress_le p hp
        exact ⟨this.1, by omega⟩
      · subst hp
        exact ⟨rfl, le_refl _⟩

theorem countInv_task (cfg : Config) (s : State) (i short : Nat) (h : CountInv cfg s) :
    CountInv cfg (search.next cfg s (.task i short)) := by
  unfold search.next
  simp only
  cases ht : s.tasks[i]? with
  | none => exact h
  | some t =>
    simp only
    obtain ⟨path, pc⟩ := t
    cases pc with
    | opening =>
      cases ho : cfg.Open path with
      | none =>
        simp only [search.taskStep, ho]
        exact countInv_move cfg s _ h i _ .failing ht rfl rfl rfl (by simp [Pc.holdsSlot])
          (le_refl _) (by simp [Pc.pending]) (le_refl _) (by simp [Pc.outcome]) (le_refl _)
          (by simp [Pc.outcome]) (le_refl _) (Or.inl rfl)
      | some f =>
        cases hb : search.makeBuffer cfg.memory cfg.bufferSize with
        | none =>
          simp only [search.taskStep, ho, hb]
          exact countInv_crash cfg s _ h rfl (set_self_of_getElem? _ _ _ ht) rfl rfl rfl rfl
            rfl
        | some len =>
          simp only [search.taskStep, ho, hb]
          exact countInv_move cfg s _ h i _ (.reading f []) ht rfl rfl rfl
            (by simp [Pc.holdsSlot])
            (le_refl _) (by simp [Pc.pending]) (le_refl _) (by simp [Pc.outcome]) (le_refl _)
            (by simp [Pc.outcome]) (le_refl _) (Or.inl rfl)
    | reading f hd =>
      simp only [search.taskStep]
      cases hr : search.readIter s.stopped cfg.bufferSize short f hd with
      | stop =>
        exact countInv_move cfg s _ h i _ (.deferred .aborted) ht rfl rfl rfl
          (by simp [Pc.holdsSlot])
          (le_refl _) (by simp [Pc.pending]) (le_refl _) (by simp [Pc.outcome]) (le_refl _)
          (by simp [Pc.outcome]) (le_refl _) (Or.inl rfl)
      | fail =>
        exact countInv_move cfg s _ h i _ .failing ht rfl rfl rfl
          (by simp [Pc.holdsSlot])
          (le_refl _) (by simp [Pc.pending]) (le_refl _) (by simp [Pc.outcome]) (le_refl _)
          (by simp [Pc.outcome]) (le_refl _) (Or.inl rfl)
      | eof h' =>
        exact countInv_move cfg s _ h i _ (.recording h') ht rfl rfl rfl
          (by simp [Pc.holdsSlot])
          (le_refl _) (by simp [Pc.pending]) (le_refl _) (by simp [Pc.outcome]) (le_refl _)
          (by simp [Pc.outcome]) (le_refl _) (Or.inl rfl)
      | next f' h' =>
        exact countInv_move cfg s _ h i _ (.reading f' h') ht rfl rfl rfl
          (by simp [Pc.holdsSlot])
          (le_refl _) (by simp [Pc.pending]) (le_refl _) (by simp [Pc.outcome]) (le_refl _)
          (by simp [Pc.outcome]) (le_refl _) (Or.inl rfl)
    | failing =>
      simp only [search.taskStep]
      exact countInv_move cfg s _ h i _ (.deferred .errored) ht rfl rfl rfl
        (by simp [Pc.holdsSlot])
        (le_refl _) (by simp [Pc.pending]) (le_refl _) (by simp [Pc.outcome]) (le_refl _)
        (by simp [Pc.outcome]) (Nat.le_succ _) (Or.inl rfl)
    | recording hd =>
      simp only [search.taskStep]
      exact countInv_move cfg s _ h i _ (.deferred .hashed) ht rfl rfl rfl
        (by simp [Pc.holdsSlot])
        (le_refl _) (by simp [Pc.pending]) (le_refl _) (by simp [Pc.outcome]) (Nat.le_succ _)
        (by simp [Pc.outcome]) (le_refl _) (Or.inr rfl)
    | deferred o =>
      simp only [search.taskStep]
      have hw : 0 < s.wg := by
        rw [h.wg_eq]
        exact countP_pos_of_getElem? _ _ i _ ht (by simp [Pc.pending])
      exact countInv_move cfg s _ h i _ (.releasing o) ht rfl rfl rfl
        (by simp [Pc.holdsSlot])
        (le_refl _) (by simp [Pc.pending]; omega) (Nat.sub_le _ _) (by simp [Pc.outcome])
        (le_refl _) (by simp [Pc.outcome]) (le_refl _) (Or.inl rfl)
    | releasing o =>
      simp only [search.taskStep]
      have hg : 0 < s.guard := by
        rw [h.guard_eq]
        exact countP_pos_of_getElem? _ _ i _ ht (by simp [Pc.holdsSlot])
      have hg' : s.guard ≠ 0 := by omega
      rw [if_neg hg']
      exact countInv_move cfg s _ h i _ (.exited o) ht rfl rfl rfl
        (by simp [Pc.holdsSlot]; omega)
        (Nat.sub_le _ _) (by simp [Pc.pending]) (le_refl _) (by simp [Pc.outcome])
        (le_refl _) (by simp [Pc.outcome]) (le_refl _) (Or.inl rfl)
    | exited o =>
      simp only [search.taskStep]
      exact countInv_move cfg s _ h i _ (.exited o) ht rfl rfl rfl
        (by simp [Pc.holdsSlot])
        (le_refl _) (by simp [Pc.pending]) (le_refl _) (by simp [Pc.outcome]) (le_refl _)
        (by simp [Pc.outcome]) (le_refl _) (Or.inl rfl)

theorem step_crashed (cfg : Config) (s : State) (a : Action) (h : s.main = .crashed) :
    search.step cfg s a = s := by
  simp [search.step, h]

theorem step_running (cfg : Config) (s : State) (a : Action) (h : s.main ≠ .crashed) :
    search.step cfg s a = search.next cfg s a := by
  simp [search.step, h]

theorem countInv_step (cfg : Config) (s : State) (a : Action) (h : CountInv cfg s) :
    CountInv cfg (search.step cfg s a) := by
  by_cases hcr : s.main = .crashed
  · rw [step_crashed cfg s a hcr]; exact h
  · rw [step_running cfg s a hcr]
    cases a with
    | cancel => exact countInv_cancel cfg s h
    | main order => exact countInv_main cfg s order h
    | task i short => exact countInv_task cfg s i short h

theorem countInv_run (cfg : Config) (acts : List Action) :
    ∀ s, CountInv cfg s → CountInv cfg (search.run cfg s acts) := by
  induction acts with
  | nil => intro s h; exact h
  | cons a rest ih => intro s h; exact ih _ (countInv_step cfg s a h)

/-! ## Lemmas, part 5: the invariant of the map -/

theorem get_set (m : CollisionMap) (k : String) (v : List String) (k' : String) :
    (m.set k v).get k' = if k' = k then v else m.get k' := by
  induction m with
  | nil =>
    simp only [CollisionMap.set, CollisionMap.get]
    by_cases h : k = k'
    · simp [h]
    · have : ¬ k' = k := fun e => h e.symm
      simp [h, this]
  | cons e rest ih =>
    obtain ⟨k0, v0⟩ := e
    simp only [CollisionMap.set]
    by_cases h0 : k0 = k
    · subst h0
      simp only [if_true, CollisionMap.get]
      by_cases h1 : k0 = k'
      · simp [h1]
      · have : ¬ k' = k0 := fun e => h1 e.symm
        simp [h1, this]
    · simp only [h0, if_false, CollisionMap.get, ih]
      by_cases h1 : k0 = k'
      · subst h1
        simp [h0]
      · simp [h1]

theorem keys_set (m : CollisionMap) (k : String) (v : List String) :
    (m.set k v).keys = if k ∈ m.keys then m.keys else m.keys ++ [k] := by
  induction m with
  | nil => simp [CollisionMap.set, CollisionMap.keys]
  | cons e rest ih =>
    obtain ⟨k0, v0⟩ := e
    simp only [CollisionMap.set]
    by_cases h0 : k0 = k
    · subst h0
      simp [CollisionMap.keys]
    · have h0' : ¬ k = k0 := fun e => h0 e.symm
      simp only [CollisionMap.keys] at ih
      simp only [h0, if_false, CollisionMap.keys, List.map_cons, ih, List.mem_cons, h0',
        false_or]
      split <;> simp

theorem keys_set_nodup (m : CollisionMap) (k : String) (v : List String)
    (h : m.keys.Nodup) : (m.set k v).keys.Nodup := by
  rw [keys_set]
  split
  · exact h
  · rename_i hk
    rw [List.nodup_append]
    refine ⟨h, List.nodup_singleton k, ?_⟩
    intro a ha hb
    rw [List.mem_singleton] at hb
    subst hb
    exact hk ha

theorem mem_keys_of_get (m : CollisionMap) (k : String) (h : m.get k ≠ []) : k ∈ m.keys := by
  induction m with
  | nil => simp [CollisionMap.get] at h
  | cons e rest ih =>
    obtain ⟨k0, v0⟩ := e
    simp only [CollisionMap.get] at h
    by_cases h0 : k0 = k
    · simp [CollisionMap.keys, h0]
    · simp only [h0, if_false] at h
      have := ih h
      simp only [CollisionMap.keys] at this
      simp [CollisionMap.keys, this]

theorem readIter_cases (stopped : Bool) (B short : Nat) (f : File) (h : Digest) :
    match search.readIter stopped B short f h with
    | .stop => stopped = true
    | .fail => f.data = [] ∧ f.fault = true
    | .eof h' => f.data = [] ∧ f.fault = false ∧ h' = h
    | .next f' h' => h' ++ f'.data = h ++ f.data ∧ f'.fault = f.fault := by
  unfold search.readIter File.Read
  cases stopped
  · simp only [Bool.false_eq_true, if_false]
    by_cases hB : B = 0
    · simp [hB]
    · simp only [hB, if_false]
      by_cases hd : f.data = []
      · simp only [hd, if_true]
        cases hf : f.fault <;> simp
      · simp only [hd, if_false]
        simp [List.append_assoc, List.take_append_drop]
  · simp

theorem taskOk_mono (cfg : Config) (stopped : Bool) (t : Task) (h : TaskOk cfg stopped t) :
    TaskOk cfg true t := by
  obtain ⟨path, pc⟩ := t
  cases pc with
  | deferred o => cases o <;> simp_all [TaskOk, OutcomeOk]
  | releasing o => cases o <;> simp_all [TaskOk, OutcomeOk]
  | exited o => cases o <;> simp_all [TaskOk, OutcomeOk]
  | _ => exact h

theorem mapInv_init (cfg : Config) : MapInv cfg (search.init cfg) where
  task_ok := by simp [search.init]
  keys_nodup := by simp [search.init, CollisionMap.keys]
  map_fp := by simp [search.init, CollisionMap.get]
  map_mem := by simp [search.init, CollisionMap.get]
  map_nodup := by simp [search.init, CollisionMap.get]
  groups := by simp [search.init]

theorem mapInv_cancel (cfg : Config) (s : State) (h : MapInv cfg s) :
    MapInv cfg { s with stopped := true } where
  task_ok := fun t ht => taskOk_mono cfg s.stopped t (h.task_ok t ht)
  keys_nodup := h.keys_nodup
  map_fp := h.map_fp
  map_mem := h.map_mem
  map_nodup := h.map_nodup
  groups := by
    refine ⟨h.groups.1, ?_⟩
    intro hm
    rcases h.groups.2 hm with ⟨_, h2⟩ | h2
    · exact Or.inl ⟨rfl, h2⟩
    · exact Or.inr h2

theorem mapInv_main (cfg : Config) (s : State) (order : List String) (h : MapInv cfg s) :
    MapInv cfg (search.mainStep cfg s order) := by
  unfold search.mainStep
  split
  · rename_i hm
    exact { h with groups := ⟨fun _ => h.groups.1 (by simp [hm]), by simp⟩ }
  · rename_i path r hm
    split
    · exact { h with groups := ⟨fun _ => h.groups.1 (by simp [hm]), by simp⟩ }
    · exact { h with groups := ⟨fun _ => h.groups.1 (by simp [hm]), by simp⟩ }
  · rename_i path r hm
    split
    · exact {
        task_ok := by
          intro t ht
          rcases List.mem_append.1 ht with ht | ht
          · exact h.task_ok t ht
          · rw [List.mem_singleton] at ht
            subst ht
            simp [TaskOk]
        keys_nodup := h.keys_nodup
        map_fp := h.map_fp
        map_mem := by
          intro p
          rw [h.map_mem p]
          constructor
          · rintro ⟨t, ht, hp, ho⟩
            exact ⟨t, List.mem_append.2 (Or.inl ht), hp, ho⟩
          · rintro ⟨t, ht, hp, ho⟩
            rcases List.mem_append.1 ht with ht | ht
            · exact ⟨t, ht, hp, ho⟩
            · rw [List.mem_singleton] at ht
              subst ht
              cases ho
        map_nodup := h.map_nodup
        groups := ⟨fun _ => h.groups.1 (by simp [hm]), by simp⟩ }
    · exact h
  · rename_i hm
    split
    · exact { h with groups := ⟨fun _ => h.groups.1 (by simp [hm]), by simp⟩ }
    · exact h
  · rename_i hm
    have hg : s.collisionGroups = [] := h.groups.1 (by simp [hm])
    by_cases hs : s.stopped = true
    · rw [if_pos hs]
      exact { h with groups := ⟨by simp, fun _ => Or.inl ⟨hs, rfl⟩⟩ }
    · rw [if_neg hs]
      by_cases ho : order.Perm s.collisionMap.keys
      · rw [if_pos ho]
        exact { h with groups := ⟨by simp, fun _ => Or.inr ⟨order, ho, by simp [hg]⟩⟩ }
      · rw [if_neg ho]; exact h
  · exact h
  · exact h

/-- The end of the program, before the result is derived, keeps the invariant of
the map. -/
theorem mapInv_crash (cfg : Config) (s s' : State) (h : MapInv cfg s)
    (hnd : s.main ≠ .done) (hmain : s'.main = .crashed) (htasks : s'.tasks = s.tasks)
    (hst : s'.stopped = s.stopped) (hmap : s'.collisionMap = s.collisionMap)
    (hgr : s'.collisionGroups = s.collisionGroups) : MapInv cfg s' where
  task_ok := by rw [htasks, hst]; exact h.task_ok
  keys_nodup := by rw [hmap]; exact h.keys_nodup
  map_fp := by rw [hmap]; exact h.map_fp
  map_mem := by rw [hmap, htasks]; exact h.map_mem
  map_nodup := by rw [hmap]; exact h.map_nodup
  groups := by
    rw [hmain, hgr]
    exact ⟨fun _ => h.groups.1 hnd, by simp⟩

/-- A step of a goroutine that leaves the map alone keeps the invariant of the
map. -/
theorem mapInv_move (cfg : Config) (s s' : State) (h : MapInv cfg s)
    (i : Nat) (t : Task) (pc' : Pc) (ht : s.tasks[i]? = some t)
    (hmain : s'.main = s.main) (hst : s'.stopped = s.stopped)
    (hgr : s'.collisionGroups = s.collisionGroups)
    (htasks : s'.tasks = s.tasks.set i { t with pc := pc' })
    (hmap : s'.collisionMap = s.collisionMap)
    (hok : TaskOk cfg s.stopped { t with pc := pc' })
    (hout : pc'.outcome = some .hashed ↔ t.pc.outcome = some .hashed) :
    MapInv cfg s' where
  task_ok := by
    intro x hx
    rw [htasks] at hx
    rw [hst]
    rcases mem_set_cases _ _ _ _ hx with e | m
    · subst e; exact hok
    · exact h.task_ok x m
  keys_nodup := by rw [hmap]; exact h.keys_nodup
  map_fp := by rw [hmap]; exact h.map_fp
  map_mem := by
    intro p
    rw [hmap, h.map_mem p, htasks]
    have hmem : t ∈ s.tasks := by
      obtain ⟨hi, rfl⟩ := List.getElem?_eq_some.1 ht
      exact List.getElem_mem hi
    constructor
    · rintro ⟨x, hx, hp, ho⟩
      rcases mem_cases_set _ i _ { t with pc := pc' } _ ht hx with e | m
      · subst e
        exact ⟨_, mem_set_self _ i _ _ ht, hp, hout.2 ho⟩
      · exact ⟨x, m, hp, ho⟩
    · rintro ⟨x, hx, hp, ho⟩
      rcases mem_set_cases _ _ _ _ hx with e | m
      · subst e
        exact ⟨t, hmem, hp, hout.1 ho⟩
      · exact ⟨x, m, hp, ho⟩
  map_nodup := by rw [hmap]; exact h.map_nodup
  groups := by rw [hmain, hst, hgr, hmap]; exact h.groups

/-- The step of lines 451-459 keeps the invariant of the map. -/
theorem mapInv_record (cfg : Config) (s s' : State) (h : MapInv cfg s) (hc : CountInv cfg s)
    (i : Nat) (t : Task) (hd : Digest) (ht : s.tasks[i]? = some t)
    (hpc : t.pc = .recording hd)
    (hmain : s'.main = s.main) (hst : s'.stopped = s.stopped)
    (hgr : s'.collisionGroups = s.collisionGroups)
    (htasks : s'.tasks = s.tasks.set i { t with pc := .deferred .hashed })
    (hmap : s'.collisionMap = s.collisionMap.set (search.fileHash hd)
      (s.collisionMap.get (search.fileHash hd) ++ [t.path])) :
    MapInv cfg s' := by
  have hmem : t ∈ s.tasks := by
    obtain ⟨hi, rfl⟩ := List.getElem?_eq_some.1 ht
    exact List.getElem_mem hi
  have hfp : fingerprint cfg t.path = some (search.fileHash hd) := by
    have := h.task_ok t hmem
    simp only [TaskOk, hpc] at this
    exact this
  have hnone : t.pc.outcome = none := by rw [hpc]; rfl
  have hwg : 0 < s.wg := by
    rw [hc.wg_eq]
    exact countP_pos_of_getElem? _ _ i _ ht (by rw [hpc]; rfl)
  have hnd : s.main ≠ .done := fun e => by
    have := hc.joined (Or.inr e); omega
  exact {
    task_ok := by
      intro x hx
      rw [htasks] at hx
      rw [hst]
      rcases mem_set_cases _ _ _ _ hx with e | m
      · subst e
        simp [TaskOk, OutcomeOk, hfp]
      · exact h.task_ok x m
    keys_nodup := by rw [hmap]; exact keys_set_nodup _ _ _ h.keys_nodup
    map_fp := by
      intro k p hp
      rw [hmap, get_set] at hp
      by_cases hk : k = search.fileHash hd
      · rw [if_pos hk] at hp
        rcases List.mem_append.1 hp with hp | hp
        · rw [hk]; exact h.map_fp _ p hp
        · rw [List.mem_singleton] at hp
          rw [hp, hk]; exact hfp
      · rw [if_neg hk] at hp
        exact h.map_fp k p hp
    map_mem := by
      intro p
      rw [htasks]
      constructor
      · rintro ⟨k, hp⟩
        rw [hmap, get_set] at hp
        have hold : (∃ k, p ∈ s.collisionMap.get k) ∨ p = t.path := by
          by_cases hk : k = search.fileHash hd
          · rw [if_pos hk] at hp
            rcases List.mem_append.1 hp with hp | hp
            · exact Or.inl ⟨_, hp⟩
            · exact Or.inr (List.mem_singleton.1 hp)
          · rw [if_neg hk] at hp
            exact Or.inl ⟨k, hp⟩
        rcases hold with hold | hold
        · obtain ⟨x, hx, hxp, hxo⟩ := (h.map_mem p).1 hold
          rcases mem_cases_set _ i _ { t with pc := .deferred .hashed } _ ht hx with e | m
          · subst e; rw [hnone] at hxo; cases hxo
          · exact ⟨x, m, hxp, hxo⟩
        · exact ⟨_, mem_set_self _ i _ _ ht, hold.symm, rfl⟩
      · rintro ⟨x, hx, hxp, hxo⟩
        rcases mem_set_cases _ _ _ _ hx with e | m
        · subst e
          refine ⟨search.fileHash hd, ?_⟩
          rw [hmap, get_set, if_pos rfl]
          simp only at hxp
          simp [hxp]
        · obtain ⟨k, hk⟩ := (h.map_mem p).2 ⟨x, m, hxp, hxo⟩
          refine ⟨k, ?_⟩
          rw [hmap, get_set]
          split
          · rename_i e; subst e; simp [hk]
          · exact hk
    map_nodup := by
      intro hn k
      rw [hmap, get_set]
      split
      · rw [List.nodup_append]
        refine ⟨h.map_nodup hn _, List.nodup_singleton _, ?_⟩
        intro a ha hb
        rw [List.mem_singleton] at hb
        subst hb
        obtain ⟨x, hx, hxp, hxo⟩ := (h.map_mem _).1 ⟨_, ha⟩
        obtain ⟨rest, hp1, _⟩ := hc.paths
        have hnt : (s.tasks.map Task.path).Nodup := by
          rw [← hp1] at hn
          exact (List.nodup_append.1 hn).1
        have := List.inj_on_of_nodup_map hnt hx hmem hxp
        subst this
        rw [hnone] at hxo; cases hxo
      · exact h.map_nodup hn k
    groups := by
      rw [hmain, hgr]
      exact ⟨h.groups.1, fun e => absurd e hnd⟩ }

theorem fingerprint_none_of_open (cfg : Config) (path : String) (h : cfg.Open path = none) :
    fingerprint cfg path = none := by
  simp [fingerprint, h]

theorem mapInv_task (cfg : Config) (s : State) (i short : Nat) (h : MapInv cfg s)
    (hc : CountInv cfg s) : MapInv cfg (search.next cfg s (.task i short)) := by
  unfold search.next
  simp only
  cases ht : s.tasks[i]? with
  | none => exact h
  | some t =>
    simp only
    have hmem : t ∈ s.tasks := by
      obtain ⟨hi, rfl⟩ := List.getElem?_eq_some.1 ht
      exact List.getElem_mem hi
    have hok := h.task_ok t hmem
    obtain ⟨path, pc⟩ := t
    cases pc with
    | opening =>
      cases ho : cfg.Open path with
      | none =>
        simp only [search.taskStep, ho]
        exact mapInv_move cfg s _ h i _ .failing ht rfl rfl rfl rfl rfl
          (by simp [TaskOk, fingerprint, ho]) (by simp [Pc.outcome])
      | some f =>
        cases hb : search.makeBuffer cfg.memory cfg.bufferSize with
        | none =>
          simp only [search.taskStep, ho, hb]
          have hwg : 0 < s.wg := by
            rw [hc.wg_eq]
            exact countP_pos_of_getElem? _ _ i _ ht (by simp [Pc.pending])
          have hnd : s.main ≠ .done := fun e => by
            have := hc.joined (Or.inr e); omega
          exact mapInv_crash cfg s _ h hnd rfl (set_self_of_getElem? _ _ _ ht) rfl rfl rfl
        | some len =>
          simp only [search.taskStep, ho, hb]
          exact mapInv_move cfg s _ h i _ (.reading f []) ht rfl rfl rfl rfl rfl
            (by simp [TaskOk, ho]) (by simp [Pc.outcome])
    | reading f hd =>
      simp only [search.taskStep]
      simp only [TaskOk] at hok
      obtain ⟨f0, hf0, hdata, hfault⟩ := hok
      have hcases := readIter_cases s.stopped cfg.bufferSize short f hd
      cases hr : search.readIter s.stopped cfg.bufferSize short f hd with
      | stop =>
        rw [hr] at hcases
        exact mapInv_move cfg s _ h i _ (.deferred .aborted) ht rfl rfl rfl rfl rfl
          (by simpa [TaskOk, OutcomeOk] using hcases) (by simp [Pc.outcome])
      | fail =>
        rw [hr] at hcases
        simp only at hcases
        exact mapInv_move cfg s _ h i _ .failing ht rfl rfl rfl rfl rfl
          (by simp [TaskOk, fingerprint, hf0, ← hfault, hcases.2]) (by simp [Pc.outcome])
      | eof h' =>
        rw [hr] at hcases
        simp only at hcases
        obtain ⟨h1, h2, h3⟩ := hcases
        subst h3
        rw [h1, List.append_nil] at hdata
        exact mapInv_move cfg s _ h i _ (.recording h') ht rfl rfl rfl rfl rfl
          (by simp [TaskOk, fingerprint, hf0, ← hfault, h2, hdata]) (by simp [Pc.outcome])
      | next f' h' =>
        rw [hr] at hcases
        simp only at hcases
        exact mapInv_move cfg s _ h i _ (.reading f' h') ht rfl rfl rfl rfl rfl
          (by
            simp only [TaskOk]
            exact ⟨f0, hf0, by rw [hcases.1, hdata], by rw [hcases.2, hfault]⟩)
          (by simp [Pc.outcome])
    | failing =>
      simp only [search.taskStep]
      exact mapInv_move cfg s _ h i _ (.deferred .errored) ht rfl rfl rfl rfl rfl
        (by simpa [TaskOk, OutcomeOk] using hok) (by simp [Pc.outcome])
    | recording hd =>
      simp only [search.taskStep]
      exact mapInv_record cfg s _ h hc i _ hd ht rfl rfl rfl rfl rfl rfl
    | deferred o =>
      simp only [search.taskStep]
      exact mapInv_move cfg s _ h i _ (.releasing o) ht rfl rfl rfl rfl rfl
        (by simpa [TaskOk] using hok) (by simp [Pc.outcome])
    | releasing o =>
      simp only [search.taskStep]
      split
      · exact mapInv_move cfg s _ h i _ (.releasing o) ht rfl rfl rfl rfl rfl
          (by simpa [TaskOk] using hok) (by simp [Pc.outcome])
      · exact mapInv_move cfg s _ h i _ (.exited o) ht rfl rfl rfl rfl rfl
          (by simpa [TaskOk] using hok) (by simp [Pc.outcome])
    | exited o =>
      simp only [search.taskStep]
      exact mapInv_move cfg s _ h i _ (.exited o) ht rfl rfl rfl rfl rfl
        (by simpa [TaskOk] using hok) (by simp [Pc.outcome])

theorem mapInv_step (cfg : Config) (s : State) (a : Action) (h : MapInv cfg s)
    (hc : CountInv cfg s) : MapInv cfg (search.step cfg s a) := by
  by_cases hcr : s.main = .crashed
  · rw [step_crashed cfg s a hcr]; exact h
  · rw [step_running cfg s a hcr]
    cases a with
    | cancel => exact mapInv_cancel cfg s h
    | main order => exact mapInv_main cfg s order h
    | task i short => exact mapInv_task cfg s i short h hc

theorem mapInv_run (cfg : Config) (acts : List Action) :
    ∀ s, CountInv cfg s → MapInv cfg s → MapInv cfg (search.run cfg s acts) := by
  induction acts with
  | nil => intro s _ h; exact h
  | cons a rest ih =>
    intro s hc h
    exact ih _ (countInv_step cfg s a hc) (mapInv_step cfg s a h hc)

theorem countInv_reach (cfg : Config) (acts : List Action) :
    CountInv cfg (search.run cfg (search.init cfg) acts) :=
  countInv_run cfg acts _ (countInv_init cfg)

theorem mapInv_reach (cfg : Config) (acts : List Action) :
    MapInv cfg (search.run cfg (search.init cfg) acts) :=
  mapInv_run cfg acts _ (countInv_init cfg) (mapInv_init cfg)

/-! ## Lemmas, part 6: the search that is over -/

theorem fingerprint_eq_none_iff (cfg : Config) (p : String) :
    fingerprint cfg p = none ↔ unreadable cfg p = true := by
  unfold fingerprint unreadable
  cases cfg.Open p with
  | none => simp
  | some f => cases f.fault <;> simp

theorem collect_eq (m : CollisionMap) (order : List String) :
    search.collect m order =
      (order.filter (fun k => decide ((m.get k).length > 1))).map m.get := by
  induction order with
  | nil => rfl
  | cons k rest ih =>
    unfold search.collect
    by_cases h : (m.get k).length > 1
    · simp [h, ih]
    · simp [h, ih]

theorem mem_collect (m : CollisionMap) (order : List String) (g : List String) :
    g ∈ search.collect m order ↔ ∃ k ∈ order, 1 < (m.get k).length ∧ g = m.get k := by
  rw [collect_eq, List.mem_map]
  constructor
  · rintro ⟨k, hk, rfl⟩
    rw [List.mem_filter] at hk
    exact ⟨k, hk.1, by simpa using hk.2, rfl⟩
  · rintro ⟨k, hk, hl, rfl⟩
    exact ⟨k, List.mem_filter.2 ⟨hk, by simpa using hl⟩, rfl⟩

theorem final_of_done (cfg : Config) (s : State) (hc : CountInv cfg s) (hm : MapInv cfg s)
    (hdone : s.main = .done) (hs : s.stopped = false) : Final cfg s := by
  have htp : s.tasks.map Task.path = cfg.paths := by
    obtain ⟨rest, h1, h2⟩ := hc.paths
    rw [hdone] at h2
    have := h2 hs
    subst this
    simpa using h1
  have hwg : s.tasks.countP (fun t => t.pc.pending) = 0 := by
    rw [← hc.wg_eq]; exact hc.joined (Or.inr hdone)
  have hout : ∀ t ∈ s.tasks,
      t.pc.outcome = some (if unreadable cfg t.path then .errored else .hashed) := by
    intro t ht
    have hp : ¬ (t.pc.pending = true) := (List.countP_eq_zero.1 hwg) t ht
    have hok := hm.task_ok t ht
    obtain ⟨path, pc⟩ := t
    cases pc with
    | releasing o =>
      cases o with
      | hashed =>
        simp only [TaskOk, OutcomeOk] at hok
        have : unreadable cfg path = false := by
          cases hu : unreadable cfg path with
          | false => rfl
          | true =>
            rw [(fingerprint_eq_none_iff cfg path).2 hu] at hok
            simp at hok
        simp [Pc.outcome, this]
      | errored =>
        simp only [TaskOk, OutcomeOk] at hok
        simp [Pc.outcome, (fingerprint_eq_none_iff cfg path).1 hok]
      | aborted =>
        simp only [TaskOk, OutcomeOk] at hok
        rw [hs] at hok; cases hok
    | exited o =>
      cases o with
      | hashed =>
        simp only [TaskOk, OutcomeOk] at hok
        have : unreadable cfg path = false := by
          cases hu : unreadable cfg path with
          | false => rfl
          | true =>
            rw [(fingerprint_eq_none_iff cfg path).2 hu] at hok
            simp at hok
        simp [Pc.outcome, this]
      | errored =>
        simp only [TaskOk, OutcomeOk] at hok
        simp [Pc.outcome, (fingerprint_eq_none_iff cfg path).1 hok]
      | aborted =>
        simp only [TaskOk, OutcomeOk] at hok
        rw [hs] at hok; cases hok
    | opening => simp [Pc.pending] at hp
    | reading f h => simp [Pc.pending] at hp
    | failing => simp [Pc.pending] at hp
    | recording h => simp [Pc.pending] at hp
    | deferred o => simp [Pc.pending] at hp
  refine ⟨htp, hout, ?_, ?_⟩
  · intro k p
    constructor
    · intro hp
      refine ⟨?_, hm.map_fp k p hp⟩
      obtain ⟨t, ht, htp', _⟩ := (hm.map_mem p).1 ⟨k, hp⟩
      rw [← htp, ← htp']
      exact List.mem_map_of_mem _ ht
    · rintro ⟨hp, hf⟩
      rw [← htp] at hp
      obtain ⟨t, ht, rfl⟩ := List.mem_map.1 hp
      have ho := hout t ht
      have hu : unreadable cfg t.path = false := by
        cases hu : unreadable cfg t.path with
        | false => rfl
        | true =>
          rw [(fingerprint_eq_none_iff cfg t.path).2 hu] at hf
          cases hf
      rw [hu] at ho
      obtain ⟨k', hk'⟩ := (hm.map_mem t.path).2 ⟨t, ht, rfl, by simpa using ho⟩
      have := hm.map_fp k' _ hk'
      rw [hf] at this
      cases this
      exact hk'
  · rcases hm.groups.2 hdone with ⟨h1, _⟩ | h2
    · rw [hs] at h1; cases h1
    · exact h2

theorem two_le_length_of_ne {l : List String} {a b : String} (ha : a ∈ l) (hb : b ∈ l)
    (hab : a ≠ b) : 2 ≤ l.length := by
  match l, ha, hb with
  | [], ha, _ => simp at ha
  | [x], ha, hb =>
    rw [List.mem_singleton] at ha hb
    exact absurd (ha.trans hb.symm) hab
  | _ :: _ :: _, _, _ => simp

theorem exists_ne_of_nodup {l : List String} {p : String} (hn : l.Nodup) (hl : 2 ≤ l.length)
    (hp : p ∈ l) : ∃ q ∈ l, q ≠ p := by
  match l, hn, hl, hp with
  | [], _, hl, _ => simp at hl
  | [x], _, hl, _ => simp at hl
  | x :: y :: rest, hn, _, _ =>
    have hxy : x ≠ y := by
      intro e
      rw [List.nodup_cons] at hn
      exact hn.1 (by simp [e])
    by_cases hx : x = p
    · exact ⟨y, by simp, fun e => hxy (hx.trans e.symm)⟩
    · exact ⟨x, by simp, hx⟩

theorem groups_spec (cfg : Config) (s : State) (hm : MapInv cfg s) (hf : Final cfg s)
    (hn : cfg.paths.Nodup) :
    (∀ g ∈ s.collisionGroups, 2 ≤ g.length ∧ g.Nodup ∧
      ∃ k, ∀ p, p ∈ g ↔ (p ∈ cfg.paths ∧ fingerprint cfg p = some k)) ∧
    (∀ p q k, p ∈ cfg.paths → q ∈ cfg.paths → p ≠ q →
      fingerprint cfg p = some k → fingerprint cfg q = some k →
      ∃ g ∈ s.collisionGroups, p ∈ g ∧ q ∈ g) ∧
    s.collisionGroups.flatten.Nodup ∧
    (∀ p ∈ cfg.paths, (∀ q ∈ cfg.paths, q ≠ p → fingerprint cfg q ≠ fingerprint cfg p) →
      ∀ g ∈ s.collisionGroups, p ∉ g) ∧
    (∀ p, fingerprint cfg p = none → ∀ g ∈ s.collisionGroups, p ∉ g) := by
  obtain ⟨order, hperm, hgroups⟩ := hf.groups
  have hmem : ∀ g, g ∈ s.collisionGroups ↔
      ∃ k ∈ order, 1 < (s.collisionMap.get k).length ∧ g = s.collisionMap.get k := by
    intro g; rw [hgroups]; exact mem_collect _ _ g
  have hord : order.Nodup := hperm.nodup_iff.2 hm.keys_nodup
  refine ⟨?_, ?_, ?_, ?_, ?_⟩
  · intro g hg
    obtain ⟨k, _, hl, rfl⟩ := (hmem g).1 hg
    exact ⟨hl, hm.map_nodup hn k, k, fun p => hf.map_iff k p⟩
  · intro p q k hp hq hpq hfp hfq
    have h1 : p ∈ s.collisionMap.get k := (hf.map_iff k p).2 ⟨hp, hfp⟩
    have h2 : q ∈ s.collisionMap.get k := (hf.map_iff k q).2 ⟨hq, hfq⟩
    have hl : 2 ≤ (s.collisionMap.get k).length := two_le_length_of_ne h1 h2 hpq
    have hk : k ∈ order := by
      rw [hperm.mem_iff]
      apply mem_keys_of_get
      intro e; rw [e] at h1; simp at h1
    exact ⟨_, (hmem _).2 ⟨k, hk, hl, rfl⟩, h1, h2⟩
  · rw [hgroups, collect_eq, List.nodup_flatten]
    constructor
    · intro l hl
      obtain ⟨k, _, rfl⟩ := List.mem_map.1 hl
      exact hm.map_nodup hn k
    · rw [List.pairwise_map]
      apply List.Pairwise.filter
      apply List.Pairwise.imp _ hord
      intro a b hab p hpa hpb
      have h1 := hm.map_fp a p hpa
      have h2 := hm.map_fp b p hpb
      rw [h1] at h2
      exact hab (Option.some.inj h2)
  · intro p _ huniq g hg hpg
    obtain ⟨k, _, hl, rfl⟩ := (hmem g).1 hg
    obtain ⟨q, hq, hqp⟩ := exists_ne_of_nodup (hm.map_nodup hn k) hl hpg
    have h1 := (hf.map_iff k p).1 hpg
    have h2 := (hf.map_iff k q).1 hq
    exact huniq q h2.1 hqp (h2.2.trans h1.2.symm)
  · intro p hnone g hg hpg
    obtain ⟨k, _, _, rfl⟩ := (hmem g).1 hg
    have := hm.map_fp k p hpg
    rw [hnone] at this; cases this

/-! ## Lemmas, part 7: a search that runs to its end -/

theorem run_append (cfg : Config) (a b : List Action) :
    ∀ s, search.run cfg s (a ++ b) = search.run cfg (search.run cfg s a) b := by
  induction a with
  | nil => intro s; rfl
  | cons x rest ih => intro s; exact ih _

/-- A step of a goroutine, `stopped` unset and the buffer not empty, brings it
nearer its end and touches no other goroutine. -/
theorem task_step_progress (cfg : Config) (s : State) (i short : Nat) (t : Task)
    (hc : CountInv cfg s) (ht : s.tasks[i]? = some t) (hs : s.stopped = false)
    (hB : 1 ≤ cfg.bufferSize)
    (hA : search.makeBuffer cfg.memory cfg.bufferSize = some cfg.bufferSize)
    (hrun : s.main ≠ .crashed) :
    ∃ t', (search.step cfg s (.task i short)).tasks = s.tasks.set i t' ∧
      stepsLeft cfg t' ≤ stepsLeft cfg t - 1 ∧
      (search.step cfg s (.task i short)).main = s.main ∧
      (search.step cfg s (.task i short)).stopped = false := by
  have hB' : cfg.bufferSize ≠ 0 := by omega
  rw [step_running cfg s _ hrun]
  unfold search.next
  simp only [ht]
  obtain ⟨path, pc⟩ := t
  cases pc with
  | opening =>
    cases ho : cfg.Open path with
    | none =>
      simp only [search.taskStep, ho]
      exact ⟨_, rfl, by simp [stepsLeft, search.taskFuel, ho], trivial, hs⟩
    | some f =>
      simp only [search.taskStep, ho, hA]
      exact ⟨_, rfl, by simp [stepsLeft, search.taskFuel, ho], trivial, hs⟩
  | reading f hd =>
    simp only [search.taskStep, hs]
    by_cases hdata : f.data = []
    · rw [readIter_empty _ _ f hd hB hdata]
      cases hf : f.fault
      · exact ⟨_, rfl, by simp [stepsLeft], rfl, hs⟩
      · exact ⟨_, rfl, by simp [stepsLeft], rfl, hs⟩
    · rw [readIter_nonempty _ _ f hd hB hdata]
      refine ⟨_, rfl, ?_, rfl, hs⟩
      have hpos : 0 < f.data.length := List.length_pos.2 hdata
      have : 1 ≤ min cfg.bufferSize (short + 1) := Nat.le_min.2 ⟨hB, by omega⟩
      simp only [stepsLeft, List.length_drop]
      omega
  | failing =>
    simp only [search.taskStep]
    exact ⟨_, rfl, by simp [stepsLeft], trivial, hs⟩
  | recording hd =>
    simp only [search.taskStep]
    exact ⟨_, rfl, by simp [stepsLeft], trivial, hs⟩
  | deferred o =>
    simp only [search.taskStep]
    exact ⟨_, rfl, by simp [stepsLeft], trivial, hs⟩
  | releasing o =>
    simp only [search.taskStep]
    have hg : 0 < s.guard := by
      rw [hc.guard_eq]
      exact countP_pos_of_getElem? _ _ i _ ht (by simp [Pc.holdsSlot])
    have hg' : s.guard ≠ 0 := by omega
    rw [if_neg hg']
    exact ⟨_, rfl, by simp [stepsLeft], rfl, hs⟩
  | exited o =>
    simp only [search.taskStep]
    exact ⟨_, rfl, by simp [stepsLeft], trivial, hs⟩

theorem task_run_progress (cfg : Config) (i short : Nat) (hB : 1 ≤ cfg.bufferSize)
    (hA : search.makeBuffer cfg.memory cfg.bufferSize = some cfg.bufferSize) :
    ∀ (k : Nat) (s : State) (t : Task), CountInv cfg s → s.tasks[i]? = some t →
      s.stopped = false → s.main ≠ .crashed →
      ∃ t', (search.run cfg s (List.replicate k (.task i short))).tasks = s.tasks.set i t' ∧
        stepsLeft cfg t' ≤ stepsLeft cfg t - k ∧
        (search.run cfg s (List.replicate k (.task i short))).main = s.main ∧
        (search.run cfg s (List.replicate k (.task i short))).stopped = false := by
  intro k
  induction k with
  | zero =>
    intro s t _ ht hs _
    exact ⟨t, (set_self_of_getElem? _ _ _ ht).symm, by simp, rfl, hs⟩
  | succ n ih =>
    intro s t hc ht hs hrun
    obtain ⟨t1, h1, h2, h3, h4⟩ := task_step_progress cfg s i short t hc ht hs hB hA hrun
    have hi : i < s.tasks.length := (List.getElem?_eq_some.1 ht).1
    have ht1 : (search.step cfg s (.task i short)).tasks[i]? = some t1 := by
      rw [h1]; simp [hi]
    obtain ⟨t', g1, g2, g3, g4⟩ :=
      ih (search.step cfg s (.task i short)) t1 (countInv_step cfg s _ hc) ht1 h4
        (by rw [h3]; exact hrun)
    refine ⟨t', ?_, ?_, ?_, ?_⟩
    · show (search.run cfg (search.step cfg s (.task i short)) _).tasks = _
      rw [g1, h1, List.set_set]
    · omega
    · show (search.run cfg (search.step cfg s (.task i short)) _).main = _
      rw [g3, h3]
    · exact g4

theorem set_append_length (l : List Task) (a b : Task) :
    (l ++ [a]).set l.length b = l ++ [b] := by
  induction l with
  | nil => rfl
  | cons x xs ih => simp [ih]

/-- The invariant of the sequential schedule: the goroutines started are over
and the search is not cancelled. -/
theorem seqFrom_run (cfg : Config) (hC : 1 ≤ cfg.routineCount) (hB : 1 ≤ cfg.bufferSize)
    (hA : search.makeBuffer cfg.memory cfg.bufferSize = some cfg.bufferSize) :
    ∀ (rest : List String) (s : State), CountInv cfg s → s.main = .loop rest →
      s.stopped = false → (∀ t ∈ s.tasks, ∃ o, t.pc = .exited o) →
      (search.run cfg s (search.seqFrom cfg s.tasks.length rest)).main = .loop [] ∧
      (search.run cfg s (search.seqFrom cfg s.tasks.length rest)).stopped = false ∧
      (∀ t ∈ (search.run cfg s (search.seqFrom cfg s.tasks.length rest)).tasks,
        ∃ o, t.pc = .exited o) := by
  intro rest
  induction rest with
  | nil => intro s _ hm hs hall; exact ⟨hm, hs, hall⟩
  | cons path rest ih =>
    intro s hc hm hs hall
    have hg : s.guard = 0 := by
      rw [hc.guard_eq, List.countP_eq_zero]
      intro t ht
      obtain ⟨o, ho⟩ := hall t ht
      simp [ho, Pc.holdsSlot]
    have hlt : s.guard < cfg.routineCount := by omega
    have e3 : (search.run cfg s [Action.main [], Action.main []]).main = .loop rest ∧
        (search.run cfg s [Action.main [], Action.main []]).stopped = false ∧
        (search.run cfg s [Action.main [], Action.main []]).tasks =
          s.tasks ++ [{ path := path, pc := .opening }] := by
      simp [search.run, search.step, search.next, search.mainStep, hm, hs, hlt]
    have hc2 : CountInv cfg (search.run cfg s [Action.main [], Action.main []]) :=
      countInv_run cfg _ _ hc
    unfold search.seqFrom
    rw [run_append, run_append]
    generalize search.run cfg s [Action.main [], Action.main []] = s2 at e3 hc2 ⊢
    obtain ⟨m2, st2, tk2⟩ := e3
    obtain ⟨t', g1, g2, g3, g4⟩ := task_run_progress cfg s.tasks.length cfg.bufferSize hB hA
      (search.taskFuel cfg path) s2 { path := path, pc := .opening } hc2
      (by rw [tk2]; simp) st2 (by rw [m2]; simp)
    have hex : ∃ o, t'.pc = .exited o := by
      have h0 : stepsLeft cfg t' = 0 := by
        have e : stepsLeft cfg { path := path, pc := .opening } = search.taskFuel cfg path :=
          rfl
        rw [e] at g2
        omega
      obtain ⟨p', pc'⟩ := t'
      cases pc' <;> simp [stepsLeft, search.taskFuel] at h0
      · split at h0 <;> omega
      · exact ⟨_, rfl⟩
    rw [tk2, set_append_length] at g1
    have hc3 := countInv_run cfg
      (List.replicate (search.taskFuel cfg path) (.task s.tasks.length cfg.bufferSize)) s2 hc2
    generalize search.run cfg s2
      (List.replicate (search.taskFuel cfg path) (.task s.tasks.length cfg.bufferSize)) = s3
      at g1 g3 g4 hc3 ⊢
    have hlen : s3.tasks.length = s.tasks.length + 1 := by rw [g1]; simp
    have := ih s3 hc3 (g3.trans m2) g4 (by
      intro t ht
      rw [g1] at ht
      rcases List.mem_append.1 ht with ht | ht
      · exact hall t ht
      · rw [List.mem_singleton] at ht
        subst ht; exact hex)
    rw [hlen] at this
    exact this

theorem sequential_done (cfg : Config) (hC : 1 ≤ cfg.routineCount)
    (hB : 1 ≤ cfg.bufferSize)
    (hA : search.makeBuffer cfg.memory cfg.bufferSize = some cfg.bufferSize) :
    (search.run cfg (search.init cfg) (search.sequential cfg)).main = .done ∧
    (search.run cfg (search.init cfg) (search.sequential cfg)).stopped = false := by
  have h := seqFrom_run cfg hC hB hA cfg.paths (search.init cfg) (countInv_init cfg) rfl rfl
    (by simp [search.init])
  have e0 : (search.init cfg).tasks.length = 0 := rfl
  rw [e0] at h
  obtain ⟨h1, h2, h3⟩ := h
  have hc := countInv_reach cfg (search.seqFrom cfg 0 cfg.paths)
  unfold search.sequential
  simp only
  rw [run_append, run_append]
  generalize search.run cfg (search.init cfg) (search.seqFrom cfg 0 cfg.paths) = s1 at *
  have hwg : s1.wg = 0 := by
    rw [hc.wg_eq, List.countP_eq_zero]
    intro t ht
    obtain ⟨o, ho⟩ := h3 t ht
    simp [ho, Pc.pending]
  have e2 : (search.run cfg s1 [Action.main [], Action.main []]).main = .check ∧
      (search.run cfg s1 [Action.main [], Action.main []]).stopped = false := by
    simp [search.run, search.step, search.next, search.mainStep, h1, h2, hwg]
  generalize search.run cfg s1 [Action.main [], Action.main []] = s2 at e2 ⊢
  simp [search.run, search.step, search.next, search.mainStep, e2.1, e2.2]

/-! ## Lemmas, part 8: single steps, progress, cancellation -/

theorem next_counters (cfg : Config) (s : State) (a : Action) :
    ((search.next cfg s a).finished = s.finished ∧
        ((search.next cfg s a).errCount = s.errCount ∨
          (search.next cfg s a).errCount = s.errCount + 1)) ∨
      ((search.next cfg s a).finished = s.finished + 1 ∧
        (search.next cfg s a).errCount = s.errCount) := by
  cases a with
  | cancel => exact Or.inl ⟨rfl, Or.inl rfl⟩
  | main order =>
    show _ ∨ _
    simp only [search.next, search.mainStep]
    split
    · exact Or.inl ⟨rfl, Or.inl rfl⟩
    · split <;> exact Or.inl ⟨rfl, Or.inl rfl⟩
    · split <;> exact Or.inl ⟨rfl, Or.inl rfl⟩
    · split <;> exact Or.inl ⟨rfl, Or.inl rfl⟩
    · split
      · exact Or.inl ⟨rfl, Or.inl rfl⟩
      · split <;> exact Or.inl ⟨rfl, Or.inl rfl⟩
    · exact Or.inl ⟨rfl, Or.inl rfl⟩
    · exact Or.inl ⟨rfl, Or.inl rfl⟩
  | task i short =>
    simp only [search.next]
    cases ht : s.tasks[i]? with
    | none => exact Or.inl ⟨rfl, Or.inl rfl⟩
    | some t =>
      obtain ⟨path, pc⟩ := t
      cases pc with
      | opening =>
        simp only [search.taskStep]
        split
        · exact Or.inl ⟨rfl, Or.inl rfl⟩
        · split <;> exact Or.inl ⟨rfl, Or.inl rfl⟩
      | reading f h =>
        simp only [search.taskStep]
        split <;> exact Or.inl ⟨rfl, Or.inl rfl⟩
      | failing => exact Or.inl ⟨rfl, Or.inr rfl⟩
      | recording h => exact Or.inr ⟨rfl, rfl⟩
      | deferred o => exact Or.inl ⟨rfl, Or.inl rfl⟩
      | releasing o =>
        simp only [search.taskStep]
        split <;> exact Or.inl ⟨rfl, Or.inl rfl⟩
      | exited o => exact Or.inl ⟨rfl, Or.inl rfl⟩

theorem step_counters (cfg : Config) (s : State) (a : Action) :
    ((search.step cfg s a).finished = s.finished ∧
        ((search.step cfg s a).errCount = s.errCount ∨
          (search.step cfg s a).errCount = s.errCount + 1)) ∨
      ((search.step cfg s a).finished = s.finished + 1 ∧
        (search.step cfg s a).errCount = s.errCount) := by
  by_cases hcr : s.main = .crashed
  · rw [step_crashed cfg s a hcr]; exact Or.inl ⟨rfl, Or.inl rfl⟩
  · rw [step_running cfg s a hcr]; exact next_counters cfg s a

theorem taskStep_outcome (cfg : Config) (s : State) (t : Task) (short : Nat) (o : Outcome)
    (h : t.pc.outcome = some o) : (search.taskStep cfg s t short).1.outcome = some o := by
  obtain ⟨path, pc⟩ := t
  cases pc with
  | deferred o' => exact h
  | releasing o' =>
    simp only [search.taskStep]
    split <;> exact h
  | exited o' => exact h
  | opening => cases h
  | reading f hd => cases h
  | failing => cases h
  | recording hd => cases h

theorem next_outcome_stable (cfg : Config) (s : State) (a : Action) (i : Nat) (t : Task)
    (o : Outcome) (ht : s.tasks[i]? = some t) (ho : t.pc.outcome = some o) :
    ∃ t', (search.next cfg s a).tasks[i]? = some t' ∧ t'.path = t.path ∧
      t'.pc.outcome = some o := by
  cases a with
  | cancel => exact ⟨t, ht, rfl, ho⟩
  | main order =>
    simp only [search.next, search.mainStep]
    split
    · exact ⟨t, ht, rfl, ho⟩
    · split <;> exact ⟨t, ht, rfl, ho⟩
    · split
      · refine ⟨t, ?_, rfl, ho⟩
        have hi : i < s.tasks.length := (List.getElem?_eq_some.1 ht).1
        simp only
        rw [List.getElem?_append_left hi]; exact ht
      · exact ⟨t, ht, rfl, ho⟩
    · split <;> exact ⟨t, ht, rfl, ho⟩
    · split
      · exact ⟨t, ht, rfl, ho⟩
      · split <;> exact ⟨t, ht, rfl, ho⟩
    · exact ⟨t, ht, rfl, ho⟩
    · exact ⟨t, ht, rfl, ho⟩
  | task j short =>
    simp only [search.next]
    cases hj : s.tasks[j]? with
    | none => exact ⟨t, ht, rfl, ho⟩
    | some tj =>
      have htasks : (search.taskStep cfg s tj short).2.tasks = s.tasks := by
        obtain ⟨path, pc⟩ := tj
        cases pc <;> simp only [search.taskStep] <;> (try split) <;> (try split) <;> rfl
      simp only [htasks]
      by_cases hij : j = i
      · subst hij
        rw [ht] at hj
        cases hj
        have hi : j < s.tasks.length := (List.getElem?_eq_some.1 ht).1
        refine ⟨{ t with pc := (search.taskStep cfg s t short).1 }, by simp [hi], rfl, ?_⟩
        exact taskStep_outcome cfg s t short o ho
      · refine ⟨t, ?_, rfl, ho⟩
        rw [List.getElem?_set_ne hij]; exact ht

theorem step_outcome_stable (cfg : Config) (s : State) (a : Action) (i : Nat) (t : Task)
    (o : Outcome) (ht : s.tasks[i]? = some t) (ho : t.pc.outcome = some o) :
    ∃ t', (search.step cfg s a).tasks[i]? = some t' ∧ t'.path = t.path ∧
      t'.pc.outcome = some o := by
  by_cases hcr : s.main = .crashed
  · rw [step_crashed cfg s a hcr]; exact ⟨t, ht, rfl, ho⟩
  · rw [step_running cfg s a hcr]; exact next_outcome_stable cfg s a i t o ht ho

theorem countP_outcomes_le (l : List Task) :
    l.countP (fun t => t.pc.outcome = some .hashed) +
      l.countP (fun t => t.pc.outcome = some .errored) ≤ l.length := by
  induction l with
  | nil => simp
  | cons t rest ih =>
    simp only [List.countP_cons, List.length_cons, decide_eq_true_eq]
    by_cases h1 : t.pc.outcome = some .hashed
    · have h2 : ¬ t.pc.outcome = some .errored := by rw [h1]; simp
      rw [if_pos h1, if_neg h2]
      omega
    · rw [if_neg h1]
      split <;> omega

theorem counters_le_total (cfg : Config) (s : State) (h : CountInv cfg s) :
    s.finished + s.errCount ≤ s.tasks.length ∧ s.tasks.length ≤ cfg.paths.length := by
  constructor
  · rw [h.finished_eq, h.errCount_eq]; exact countP_outcomes_le s.tasks
  · obtain ⟨rest, h1, _⟩ := h.paths
    rw [← h1]; simp

theorem progressValue_le_one (p : Nat × Nat) (h : p.1 ≤ p.2) : progressValue p ≤ 1 := by
  unfold progressValue
  by_cases h0 : p.2 = 0
  · simp [h0]
  · have hpos : (0 : ℚ) < (p.2 : ℚ) := by
      have : 0 < p.2 := Nat.pos_of_ne_zero h0
      exact_mod_cast this
    rw [div_le_one hpos]
    exact_mod_cast h

theorem progressValue_mono (a b : Nat × Nat) (hd : a.2 = b.2) (h : a.1 ≤ b.1) :
    progressValue a ≤ progressValue b := by
  unfold progressValue
  rw [hd]
  apply div_le_div_of_nonneg_right
  · exact_mod_cast h
  · exact Nat.cast_nonneg _

theorem progress_values (cfg : Config) (s : State) (h : CountInv cfg s) :
    (s.progress.map progressValue).Pairwise (fun a b => a ≤ b) ∧
    (∀ v ∈ s.progress.map progressValue, v ≤ 1) ∧
    (∀ p ∈ s.progress, p.2 = cfg.paths.length ∧ p.1 ≤ cfg.paths.length) := by
  have hle := counters_le_total cfg s h
  have hall : ∀ p ∈ s.progress, p.2 = cfg.paths.length ∧ p.1 ≤ cfg.paths.length := by
    intro p hp
    have := h.progress_le p hp
    exact ⟨this.1, by omega⟩
  refine ⟨?_, ?_, hall⟩
  · rw [List.pairwise_map]
    have hs := h.progress_sorted
    rw [List.pairwise_map] at hs
    refine List.Pairwise.imp_of_mem ?_ hs
    intro a b ha hb hab
    exact progressValue_mono a b ((hall a ha).1.trans (hall b hb).1.symm) hab
  · intro v hv
    obtain ⟨p, hp, rfl⟩ := List.mem_map.1 hv
    have := hall p hp
    exact progressValue_le_one p (by omega)

theorem cancelled_next (cfg : Config) (s : State) (a : Action)
    (h : s.stopped = true ∧ s.collisionGroups = []) :
    (search.next cfg s a).stopped = true ∧ (search.next cfg s a).collisionGroups = [] := by
  cases a with
  | cancel => exact ⟨rfl, h.2⟩
  | main order =>
    simp only [search.next, search.mainStep]
    split
    · exact h
    · split <;> exact h
    · split <;> exact h
    · split <;> exact h
    · rw [if_pos h.1]; exact ⟨h.1, rfl⟩
    · exact h
    · exact h
  | task j short =>
    simp only [search.next]
    cases hj : s.tasks[j]? with
    | none => exact h
    | some tj =>
      obtain ⟨path, pc⟩ := tj
      cases pc <;> simp only [search.taskStep] <;> (try split) <;> (try split) <;> exact h

theorem cancelled_step (cfg : Config) (s : State) (a : Action)
    (h : s.stopped = true ∧ s.collisionGroups = []) :
    (search.step cfg s a).stopped = true ∧ (search.step cfg s a).collisionGroups = [] := by
  by_cases hcr : s.main = .crashed
  · rw [step_crashed cfg s a hcr]; exact h
  · rw [step_running cfg s a hcr]; exact cancelled_next cfg s a h

theorem cancelled_run (cfg : Config) (acts : List Action) :
    ∀ s, s.stopped = true ∧ s.collisionGroups = [] →
      (search.run cfg s acts).stopped = true ∧ (search.run cfg s acts).collisionGroups = [] := by
  induction acts with
  | nil => intro s h; exact h
  | cons a rest ih => intro s h; exact ih _ (cancelled_step cfg s a h)

theorem run_crashed (cfg : Config) (acts : List Action) :
    ∀ s, s.main = .crashed → search.run cfg s acts = s := by
  induction acts with
  | nil => intro s _; rfl
  | cons a rest ih =>
    intro s h
    show search.run cfg (search.step cfg s a) rest = s
    rw [step_crashed cfg s a h]
    exact ih s h

/-! ## Lemmas, part 9: the scenarios evaluated -/

set_option maxRecDepth 1000000 in
theorem scenarioA_final :
    search.run scenarioA (search.init scenarioA) scenarioA.schedule = scenarioA.final := by
  decide

set_option maxRecDepth 1000000 in
theorem scenarioA_cancelled :
    search.run scenarioA
      (search.step scenarioA
        (search.run scenarioA (search.init scenarioA) scenarioA.beforeCancel) .cancel)
      scenarioA.afterCancel = scenarioA.cancelled := by
  decide

set_option maxRecDepth 1000000 in
theorem scenarioA_beforeCancel :
    (search.run scenarioA (search.init scenarioA) scenarioA.beforeCancel).main =
      .loop ["/r/c"] ∧
    (search.run scenarioA (search.init scenarioA) scenarioA.beforeCancel).collisionMap =
      [(scenarioA.hello, ["/r/a", "/r/b"])] := by
  decide

set_option maxRecDepth 1000000 in
theorem scenarioA_fingerprints :
    fingerprint scenarioA "/r/a" = some scenarioA.hello ∧
    fingerprint scenarioA "/r/b" = some scenarioA.hello ∧
    fingerprint scenarioA "/r/c" = some scenarioA.world := by
  decide

/-- Scenario A under every interleaving: one group, the two `hello` files. -/
theorem scenarioA_groups (acts : List Action)
    (hdone : (search.run scenarioA (search.init scenarioA) acts).main = .done)
    (hs : (search.run scenarioA (search.init scenarioA) acts).stopped = false) :
    ∃ g, (search.run scenarioA (search.init scenarioA) acts).collisionGroups = [g] ∧
      g.Perm ["/r/a", "/r/b"] := by
  have hc := countInv_reach scenarioA acts
  have hm := mapInv_reach scenarioA acts
  have hf := final_of_done scenarioA _ hc hm hdone hs
  obtain ⟨g1, g2, g3, _, _⟩ := groups_spec scenarioA _ hm hf (by decide)
  obtain ⟨fa, fb, fc⟩ := scenarioA_fingerprints
  have hpaths : ∀ p, p ∈ scenarioA.paths ↔ (p = "/r/a" ∨ p = "/r/b" ∨ p = "/r/c") := by
    intro p; simp [scenarioA]
  have hne : scenarioA.hello ≠ scenarioA.world := by decide
  -- every group holds exactly the two `hello` files
  have hall : ∀ g ∈ (search.run scenarioA (search.init scenarioA) acts).collisionGroups,
      g.Nodup ∧ ∀ p, p ∈ g ↔ (p = "/r/a" ∨ p = "/r/b") := by
    intro g hg
    obtain ⟨hl, hnd, k, hk⟩ := g1 g hg
    refine ⟨hnd, ?_⟩
    have hkh : k = scenarioA.hello := by
      match g, hl, hnd, hk with
      | x :: y :: rest, _, hnd, hk =>
        have hxy : x ≠ y := by
          intro e
          rw [List.nodup_cons] at hnd
          exact hnd.1 (by simp [e])
        have hx := (hk x).1 (by simp)
        have hy := (hk y).1 (by simp)
        rcases (hpaths x).1 hx.1 with ex | ex | ex
        · rw [ex, fa] at hx; exact (Option.some.inj hx.2).symm
        · rw [ex, fb] at hx; exact (Option.some.inj hx.2).symm
        · rcases (hpaths y).1 hy.1 with ey | ey | ey
          · rw [ey, fa] at hy; exact (Option.some.inj hy.2).symm
          · rw [ey, fb] at hy; exact (Option.some.inj hy.2).symm
          · exact absurd (ex.trans ey.symm) hxy
    subst hkh
    intro p
    rw [hk p, hpaths p]
    constructor
    · rintro ⟨ep | ep | ep, hfp⟩
      · exact Or.inl ep
      · exact Or.inr ep
      · rw [ep, fc] at hfp
        exact absurd (Option.some.inj hfp).symm hne
    · rintro (ep | ep)
      · exact ⟨Or.inl ep, by rw [ep]; exact fa⟩
      · exact ⟨Or.inr (Or.inl ep), by rw [ep]; exact fb⟩
  obtain ⟨g, hg, _, _⟩ := g2 "/r/a" "/r/b" scenarioA.hello (by decide) (by decide) (by decide)
    fa fb
  match hG : (search.run scenarioA (search.init scenarioA) acts).collisionGroups, hg with
  | [x], hg =>
    rw [hG] at hall
    refine ⟨x, rfl, ?_⟩
    obtain ⟨hnd, hmem⟩ := hall x (by simp)
    rw [List.perm_ext_iff_of_nodup hnd (by decide)]
    intro p
    rw [hmem p]
    simp
  | x :: y :: rest, _ =>
    rw [hG] at hall g3
    have hx := (hall x (by simp)).2 "/r/a"
    have hy := (hall y (by simp)).2 "/r/a"
    simp only [List.flatten_cons, List.nodup_append] at g3
    exact absurd (hy.2 (Or.inl rfl))
      (fun h => g3.2.2 (hx.2 (Or.inl rfl)) (List.mem_append.2 (Or.inl h)))

/-- C1: the add callback rejects the candidate with an error and leaves the
root list unchanged exactly when some existing root overlaps the candidate
(after splitting both on `/`, the shorter component sequence is the
corresponding prefix of the longer one), and otherwise, and only then, the
new root list is the old one with the candidate appended at the end and no
error is shown.  With roots `["/data/sub"]`, `"/data"` is rejected and
`"/other"` is accepted; `"/data"` and `"/database"` do not overlap. -/
theorem C1_addFolder_rejects_iff_overlap (rootsList : List String) (path : String) :
    ((∃ r ∈ rootsList, Overlap r path) ↔
      ((addFolder.add rootsList path).1 ≠ none ∧
        (addFolder.add rootsList path).2 = rootsList)) ∧
    ((¬ ∃ r ∈ rootsList, Overlap r path) ↔
      addFolder.add rootsList path = (none, rootsList ++ [path])) ∧
    addFolder.add ["/data/sub"] "/data" =
      (some (.New "/data\nis a root folder of\n/data/sub"), ["/data/sub"]) ∧
    addFolder.add ["/data/sub"] "/other" = (none, ["/data/sub", "/other"]) ∧
    ¬ Overlap "/data" "/database" ∧ validateDir "/data" "/database" = none := by
  refine ⟨?_, ?_, by decide, by decide, by decide, by decide⟩
  · rw [← check_isSome_iff]
    cases hc : addFolder.check path rootsList with
    | none => simp [(add_eq rootsList path).1 hc]
    | some err => simp [(add_eq rootsList path).2 err hc]
  · rw [← check_isSome_iff]
    cases hc : addFolder.check path rootsList with
    | none => simp [(add_eq rootsList path).1 hc]
    | some err => simp [(add_eq rootsList path).2 err hc]

/-- C2: starting from the empty root list, after every finite sequence of add
and delete actions, two entries at distinct positions of the root list never
overlap (neither is a component-wise ancestor or descendant of the other);
in particular they are different paths, and the list has no duplicates. -/
theorem C2_roots_never_overlap (ops : List RootOp) (i j : Nat) (a b : String)
    (hi : (rootsAfter ops)[i]? = some a) (hj : (rootsAfter ops)[j]? = some b)
    (hij : i ≠ j) :
    ¬ Overlap a b ∧ a ≠ b ∧ (rootsAfter ops).Nodup := by
  have hp := rootsAfter_pairwise ops
  have hab : ¬ Overlap a b :=
    pairwise_getElem? (R := fun a b => ¬ Overlap a b)
      (fun a b h h2 => h (overlap_symm h2)) hp hi hj hij
  refine ⟨hab, ?_, ?_⟩
  · rintro rfl; exact hab (overlap_refl a)
  · exact hp.imp (fun {a b} h (e : a = b) => h (e ▸ overlap_refl a))

/-- Witness of C2: add `/data/sub`, `/data` (rejected), `/other`, delete
`/data/sub`, add `/data` (now accepted). -/
theorem C2_roots_never_overlap_witness :
    (rootsAfter [.add "/data/sub", .add "/data", .add "/other", .delete "/data/sub",
        .add "/data"])[0]? = some "/other" ∧
    (rootsAfter [.add "/data/sub", .add "/data", .add "/other", .delete "/data/sub",
        .add "/data"])[1]? = some "/data" ∧
    (¬ Overlap "/other" "/data" ∧ "/other" ≠ "/data" ∧
      (rootsAfter [.add "/data/sub", .add "/data", .add "/other", .delete "/data/sub",
        .add "/data"]).Nodup) :=
  ⟨by decide, by decide,
    C2_roots_never_overlap
      [.add "/data/sub", .add "/data", .add "/other", .delete "/data/sub", .add "/data"]
      0 1 "/other" "/data" (by decide) (by decide) (by decide)⟩

/-- C8: `remove` deletes the first occurrence of the path and nothing else;
on a list without duplicates the result is the list without that path, every
other root kept in its original order; when the path is not in the list the
list is returned unchanged (there is no error to raise: the result is a
list). -/
theorem C8_remove_first_occurrence (s : List String) (r : String) :
    remove s r = s.erase r ∧
    (r ∈ s → ∃ pre post, s = pre ++ r :: post ∧ r ∉ pre ∧ remove s r = pre ++ post) ∧
    (r ∉ s → remove s r = s) ∧
    (s.Nodup → r ∉ remove s r ∧ remove s r = s.filter (fun v => v ≠ r)) := by
  have he := remove_eq_erase s r
  refine ⟨he, ?_, ?_, ?_⟩
  · intro hr
    obtain ⟨pre, post, h1, h2, h3⟩ := List.exists_erase_eq hr
    exact ⟨pre, post, h2, h1, by rw [he, h3]⟩
  · intro hr; rw [he]; exact List.erase_of_not_mem hr
  · intro hn
    rw [he]
    refine ⟨fun h => ?_, ?_⟩
    · exact (List.Nodup.mem_erase_iff hn).1 h |>.1 rfl
    · rw [List.Nodup.erase_eq_filter hn]
      congr 1
      funext v
      by_cases hv : v = r <;> simp [hv]

/-- Witness of C8: deleting `"b"` from `["a", "b", "c"]`. -/
theorem C8_remove_first_occurrence_witness :
    remove ["a", "b", "c"] "b" = ["a", "c"] ∧ "b" ∉ remove ["a", "b", "c"] "b" ∧
    remove ["a", "b", "c", "b"] "b" = ["a", "c", "b"] ∧
    remove ["a", "c"] "b" = ["a", "c"] := by
  have h := C8_remove_first_occurrence ["a", "b", "c"] "b"
  have h2 := (C8_remove_first_occurrence ["a", "c"] "b").2.2.1 (by decide)
  exact ⟨by decide, (h.2.2.2 (by decide)).1, by decide, h2⟩

/-- C10: the two settings start at 50 and 32768 and are at least 1 after every
sequence of submissions; `entryValidator` returns `nil` exactly when
`strconv.Atoi` parses the text without error to an integer that is at least 1;
a handler overwrites its setting with that integer when the validator accepts
the text, and leaves both settings as they are when it rejects it, as it does
for every text that does not parse (not a number, out of range) or parses to
zero or a negative number. -/
theorem C10_settings_at_least_one (ops : List SettingsOp) (st : Settings) (s : String) :
    (main.defaults.routineCount = 50 ∧ main.defaults.bufferSize = 32768) ∧
    (1 ≤ (settingsAfter ops).routineCount ∧ 1 ≤ (settingsAfter ops).bufferSize) ∧
    (entryValidator s = none ↔ ((strconv.Atoi s).2 = none ∧ 1 ≤ (strconv.Atoi s).1)) ∧
    (entryValidator s = none →
      settings.routineCountSave st s = { st with routineCount := (strconv.Atoi s).1 } ∧
      settings.bufferSizeSave st s = { st with bufferSize := (strconv.Atoi s).1 }) ∧
    ((strconv.Atoi s).2 ≠ none ∨ (strconv.Atoi s).1 < 1 →
      entryValidator s ≠ none ∧
      settings.routineCountSave st s = st ∧ settings.bufferSizeSave st s = st) := by
  refine ⟨⟨rfl, rfl⟩, foldl_settings_ge ops _ ⟨by decide, by decide⟩,
    entryValidator_eq_none_iff s, ?_, ?_⟩
  · intro h
    simp [settings.routineCountSave, settings.bufferSizeSave, h]
  · intro h
    have hv : entryValidator s ≠ none := by
      intro hv
      have := (entryValidator_eq_none_iff s).1 hv
      rcases h with h | h
      · exact h this.1
      · omega
    simp [settings.routineCountSave, settings.bufferSizeSave, hv]

/-- Witness of C10: `"8"` is accepted and saved; `"0"`, `"-3"`, `"x"`, the
empty text and `"9223372036854775808"` (out of range) are rejected and leave
the settings as they are. -/
theorem C10_settings_at_least_one_witness :
    settingsAfter [.routineCount "8", .bufferSize "0", .bufferSize "x", .routineCount "-3",
      .bufferSize "", .routineCount "9223372036854775808"] =
      { routineCount := 8, bufferSize := 32768 } ∧
    entryValidator "8" = none ∧
    settings.routineCountSave main.defaults "8" = { routineCount := 8, bufferSize := 32768 } ∧
    entryValidator "9223372036854775808" =
      some (.NumError "Atoi" "9223372036854775808" .ErrRange) ∧
    entryValidator "x" = some (.New "too low") ∧
    (entryValidator "0" ≠ none ∧ settings.routineCountSave main.defaults "0" = main.defaults ∧
      settings.bufferSizeSave main.defaults "0" = main.defaults) :=
  ⟨by decide, by decide,
    ((C10_settings_at_least_one [] main.defaults "8").2.2.2.1 (by decide)).1,
    by decide, by decide,
    (C10_settings_at_least_one [] main.defaults "0").2.2.2.2 (Or.inr (by decide))⟩

/-- C4, as amended: for every file content and every two buffer sizes of at
least 1 that the allocation of line 428 can serve (at most `maxAlloc` bytes and
within the memory the runtime can get), whatever the sizes of the single
reads, the read loop leaves at end-of-stream within `length + 1` iterations
having written to the digest exactly the bytes of the content in order; so the
file hash computed with the one size equals the file hash computed with the
other, and both are the hexadecimal SHA-256 of the whole content. -/
theorem C4_fingerprint_independent_of_buffer (memory : Nat) (content : List Nat)
    (B1 B2 : Nat) (shorts1 shorts2 : List Nat) (fuel1 fuel2 : Nat)
    (hB1 : 1 ≤ B1) (hB2 : 1 ≤ B2)
    (hA1 : B1 ≤ runtime.maxAlloc) (hA2 : B2 ≤ runtime.maxAlloc)
    (hM1 : B1 ≤ memory) (hM2 : B2 ≤ memory)
    (hf1 : content.length + 1 ≤ fuel1) (hf2 : content.length + 1 ≤ fuel2) :
    search.readLoop false B1 fuel1 shorts1 { data := content, fault := false } [] =
      some (.eof content) ∧
    search.readLoop false B2 fuel2 shorts2 { data := content, fault := false } [] =
      some (.eof content) ∧
    search.hashOpened memory false B1 fuel1 shorts1 { data := content, fault := false } =
      search.hashOpened memory false B2 fuel2 shorts2 { data := content, fault := false } ∧
    search.hashOpened memory false B1 fuel1 shorts1 { data := content, fault := false } =
      some (.hash (hex.EncodeToString (sha256.Sum256 content))) := by
  have e1 := readLoop_ends B1 hB1 fuel1 shorts1 { data := content, fault := false } [] hf1
  have e2 := readLoop_ends B2 hB2 fuel2 shorts2 { data := content, fault := false } [] hf2
  simp only [Bool.false_eq_true, if_false, List.nil_append] at e1 e2
  have k1 : search.hashOpened memory false B1 fuel1 shorts1
      { data := content, fault := false } =
      some (.hash (hex.EncodeToString (sha256.Sum256 content))) := by
    simp only [search.hashOpened, makeBuffer_ok memory B1 hA1 hM1, e1]
    rfl
  have k2 : search.hashOpened memory false B2 fuel2 shorts2
      { data := content, fault := false } =
      some (.hash (hex.EncodeToString (sha256.Sum256 content))) := by
    simp only [search.hashOpened, makeBuffer_ok memory B2 hA2 hM2, e2]
    rfl
  exact ⟨e1, e2, k1.trans k2.symm, k1⟩

set_option maxRecDepth 1000000 in
/-- Witness of C4: `"hello"` read with a buffer of 2 bytes (and short reads) and
with a buffer of 32768 bytes. -/
theorem C4_fingerprint_independent_of_buffer_witness :
    search.readLoop false 2 6 [0, 5] { data := bytesOf "hello", fault := false } [] =
      some (.eof (bytesOf "hello")) ∧
    search.hashOpened (2 ^ 30) false 2 6 [0, 5] { data := bytesOf "hello", fault := false } =
      search.hashOpened (2 ^ 30) false 32768 6 []
        { data := bytesOf "hello", fault := false } ∧
    search.hashOpened (2 ^ 30) false 2 6 [0, 5] { data := bytesOf "hello", fault := false } =
      some (.hash "2cf24dba5fb0a30e26e83b2ac5b9e29e1b161e5c1fa7425e73043362938b9824") :=
  have h := C4_fingerprint_independent_of_buffer (2 ^ 30) (bytesOf "hello") 2 32768 [0, 5] []
    6 6 (by decide) (by decide) (by decide) (by decide) (by decide) (by decide) (by decide)
    (by decide)
  ⟨h.1, h.2.2.1, h.2.2.2.trans (by decide)⟩

set_option maxRecDepth 1000000 in
/-- C4 as stated fails: the buffer size 9223372036854775807 is at least 1 and
the settings window accepts it, but with it the allocation of line 428 fails
before the first `Read` and ends the program, so no fingerprint is computed,
while the size 32768 gives the SHA-256 of the content; the fingerprints do
not agree for every two sizes of at least 1. -/
theorem C4_unallocatable_buffer_counterexample :
    entryValidator "9223372036854775807" = none ∧
    (strconv.Atoi "9223372036854775807").1 = 9223372036854775807 ∧
    1 ≤ 9223372036854775807 ∧
    search.hashOpened (2 ^ 64) false 9223372036854775807 6 []
        { data := bytesOf "hello", fault := false } = some .panic ∧
    search.hashOpened (2 ^ 64) false 32768 6 []
        { data := bytesOf "hello", fault := false } =
      some (.hash "2cf24dba5fb0a30e26e83b2ac5b9e29e1b161e5c1fa7425e73043362938b9824") ∧
    (search.run scenarioHuge (search.init scenarioHuge)
      [.main [], .main [], .task 0 0]).main = .crashed ∧
    ¬ (∀ (memory : Nat) (content : List Nat) (B1 B2 : Nat), 1 ≤ B1 → 1 ≤ B2 →
        ∃ fuel,
          search.hashOpened memory false B1 fuel [] { data := content, fault := false } =
            some (.hash (hex.EncodeToString (sha256.Sum256 content))) ∧
          search.hashOpened memory false B2 fuel [] { data := content, fault := false } =
            some (.hash (hex.EncodeToString (sha256.Sum256 content)))) := by
  refine ⟨by decide, by decide, by decide, by decide, by decide, by decide, ?_⟩
  intro h
  obtain ⟨fuel, h1, _⟩ := h (2 ^ 64) [] 9223372036854775807 1 (by decide) (by decide)
  rw [hashOpened_panic _ _ _ _ _ _ (Or.inl (by decide))] at h1
  cases h1

/-- C3: for a search over a duplicate-free list of paths that is over and was
not cancelled, whatever the interleaving of the goroutines and the order of the
range over the map, the collision groups are exactly the fingerprint classes
with two or more members: every group has at least 2 paths, without
repetition, and holds exactly the paths with one fingerprint; two different
paths with the same fingerprint are together in a group; no path is in two
groups or twice in a group; a path whose fingerprint no other path has, or
that was not hashed, is in no group.  With a channel of at least 1 and a buffer
of at least 1 that can be allocated such a search exists.  In scenario A (contents `hello`, `hello`, `world`) every
such search gives exactly one group, which holds the two `hello` files. -/
theorem C3_groups_are_fingerprint_classes (cfg : Config) (acts : List Action)
    (hn : cfg.paths.Nodup)
    (hdone : (search.run cfg (search.init cfg) acts).main = .done)
    (hs : (search.run cfg (search.init cfg) acts).stopped = false) :
    (∀ g ∈ (search.run cfg (search.init cfg) acts).collisionGroups,
      2 ≤ g.length ∧ g.Nodup ∧
        ∃ k, ∀ p, p ∈ g ↔ (p ∈ cfg.paths ∧ fingerprint cfg p = some k)) ∧
    (∀ p q k, p ∈ cfg.paths → q ∈ cfg.paths → p ≠ q →
      fingerprint cfg p = some k → fingerprint cfg q = some k →
      ∃ g ∈ (search.run cfg (search.init cfg) acts).collisionGroups, p ∈ g ∧ q ∈ g) ∧
    (search.run cfg (search.init cfg) acts).collisionGroups.flatten.Nodup ∧
    (∀ p ∈ cfg.paths, (∀ q ∈ cfg.paths, q ≠ p → fingerprint cfg q ≠ fingerprint cfg p) →
      ∀ g ∈ (search.run cfg (search.init cfg) acts).collisionGroups, p ∉ g) ∧
    (∀ p, fingerprint cfg p = none →
      ∀ g ∈ (search.run cfg (search.init cfg) acts).collisionGroups, p ∉ g) ∧
    (1 ≤ cfg.routineCount → 1 ≤ cfg.bufferSize →
      cfg.bufferSize ≤ runtime.maxAlloc → cfg.bufferSize ≤ cfg.memory →
      ∃ acts', (search.run cfg (search.init cfg) acts').main = .done ∧
        (search.run cfg (search.init cfg) acts').stopped = false) ∧
    (∀ acts', (search.run scenarioA (search.init scenarioA) acts').main = .done →
      (search.run scenarioA (search.init scenarioA) acts').stopped = false →
      ∃ g, (search.run scenarioA (search.init scenarioA) acts').collisionGroups = [g] ∧
        g.Perm ["/r/a", "/r/b"]) := by
  have hc := countInv_reach cfg acts
  have hm := mapInv_reach cfg acts
  have hf := final_of_done cfg _ hc hm hdone hs
  obtain ⟨g1, g2, g3, g4, g5⟩ := groups_spec cfg _ hm hf hn
  exact ⟨g1, g2, g3, g4, g5, fun hC hB hA hM => ⟨_, sequential_done cfg hC hB (makeBuffer_ok _ _ hA hM)⟩,
    fun acts' h1 h2 => scenarioA_groups acts' h1 h2⟩

/-- Witness of C3, scenario A: the files `/r/a` and `/r/b` hold `hello`,
`/r/c` holds `world`; the search gives exactly one group, the two `hello`
files. -/
theorem C3_groups_are_fingerprint_classes_witness :
    scenarioA.paths.Nodup ∧
    (search.run scenarioA (search.init scenarioA) scenarioA.schedule).main = .done ∧
    (search.run scenarioA (search.init scenarioA) scenarioA.schedule).stopped = false ∧
    (search.run scenarioA (search.init scenarioA) scenarioA.schedule).collisionGroups =
      [["/r/b", "/r/a"]] ∧
    (search.run scenarioA (search.init scenarioA) scenarioA.schedule).collisionGroups.flatten.Nodup ∧
    (∀ g ∈ (search.run scenarioA (search.init scenarioA) scenarioA.schedule).collisionGroups,
      2 ≤ g.length ∧ g.Nodup ∧
        ∃ k, ∀ p, p ∈ g ↔ (p ∈ scenarioA.paths ∧ fingerprint scenarioA p = some k)) :=
  have h := C3_groups_are_fingerprint_classes scenarioA scenarioA.schedule (by decide)
    (by rw [scenarioA_final]; rfl) (by rw [scenarioA_final]; rfl)
  ⟨by decide, by rw [scenarioA_final]; rfl, by rw [scenarioA_final]; rfl,
    by rw [scenarioA_final]; rfl, h.2.2.1, h.1⟩

/-- C5: once the window is closed before `collisionGroups` is derived, the
result is the empty sequence at every later moment, whatever the map holds;
the step of line 466 taken with `stopped` set stores the empty sequence and
ends the search, for every state of the map. -/
theorem C5_cancelled_result_empty (cfg : Config) (before after : List Action)
    (hnd : (search.run cfg (search.init cfg) before).main ≠ .done) :
    (search.run cfg
        (search.step cfg (search.run cfg (search.init cfg) before) .cancel)
        after).collisionGroups = [] ∧
    (∀ (s : State) (order : List String), s.main = .check → s.stopped = true →
      (search.step cfg s (.main order)).collisionGroups = [] ∧
      (search.step cfg s (.main order)).main = .done) := by
  constructor
  · have hm := mapInv_reach cfg before
    by_cases hcr : (search.run cfg (search.init cfg) before).main = .crashed
    · rw [step_crashed cfg _ _ hcr, run_crashed cfg after _ hcr]
      exact hm.groups.1 hnd
    · rw [step_running cfg _ _ hcr]
      exact (cancelled_run cfg after
        (search.next cfg (search.run cfg (search.init cfg) before) .cancel)
        ⟨rfl, hm.groups.1 hnd⟩).2
  · intro s order h1 h2
    simp [search.step, search.next, search.mainStep, h1, h2]

/-- Witness of C5, scenario A: the window is closed when both `hello` files are
in the map under one key; the search ends with that entry in the map and no
group. -/
theorem C5_cancelled_result_empty_witness :
    (search.run scenarioA (search.init scenarioA) scenarioA.beforeCancel).collisionMap =
      [(scenarioA.hello, ["/r/a", "/r/b"])] ∧
    (search.run scenarioA
        (search.step scenarioA
          (search.run scenarioA (search.init scenarioA) scenarioA.beforeCancel) .cancel)
        scenarioA.afterCancel).main = .done ∧
    (search.run scenarioA
        (search.step scenarioA
          (search.run scenarioA (search.init scenarioA) scenarioA.beforeCancel) .cancel)
        scenarioA.afterCancel).collisionMap = [(scenarioA.hello, ["/r/a", "/r/b"])] ∧
    (search.run scenarioA
        (search.step scenarioA
          (search.run scenarioA (search.init scenarioA) scenarioA.beforeCancel) .cancel)
        scenarioA.afterCancel).collisionGroups = [] :=
  ⟨scenarioA_beforeCancel.2, by rw [scenarioA_cancelled]; rfl,
    by rw [scenarioA_cancelled]; rfl,
    (C5_cancelled_result_empty scenarioA scenarioA.beforeCancel scenarioA.afterCancel
      (by rw [scenarioA_beforeCancel.1]; decide)).1⟩

/-- C6: in every reachable state of a search, cancelled or not, `finished +
errCount` is at most the number of paths; a step leaves both counters as they
are or adds one to one of them; `finished` counts the goroutines that ended in
`hashed` and `errCount` those that ended in `errored`, a goroutine keeps the
outcome it ended in, and there are no more goroutines than paths; the progress
values published so far are in non-decreasing order and at most 1 (the value
`float64(a) / float64(b)` is taken as the rational `a / b`). -/
theorem C6_counters_bounded_progress_monotone (cfg : Config) (acts : List Action)
    (a : Action) :
    (search.run cfg (search.init cfg) acts).finished +
      (search.run cfg (search.init cfg) acts).errCount ≤ cfg.paths.length ∧
    (((search.step cfg (search.run cfg (search.init cfg) acts) a).finished =
          (search.run cfg (search.init cfg) acts).finished ∧
        ((search.step cfg (search.run cfg (search.init cfg) acts) a).errCount =
            (search.run cfg (search.init cfg) acts).errCount ∨
          (search.step cfg (search.run cfg (search.init cfg) acts) a).errCount =
            (search.run cfg (search.init cfg) acts).errCount + 1)) ∨
      ((search.step cfg (search.run cfg (search.init cfg) acts) a).finished =
          (search.run cfg (search.init cfg) acts).finished + 1 ∧
        (search.step cfg (search.run cfg (search.init cfg) acts) a).errCount =
          (search.run cfg (search.init cfg) acts).errCount)) ∧
    ((search.run cfg (search.init cfg) acts).finished =
        (search.run cfg (search.init cfg) acts).tasks.countP
          (fun t => t.pc.outcome = some .hashed) ∧
      (search.run cfg (search.init cfg) acts).errCount =
        (search.run cfg (search.init cfg) acts).tasks.countP
          (fun t => t.pc.outcome = some .errored) ∧
      (search.run cfg (search.init cfg) acts).tasks.length ≤ cfg.paths.length) ∧
    (∀ (i : Nat) (t : Task) (o : Outcome),
      (search.run cfg (search.init cfg) acts).tasks[i]? = some t →
      t.pc.outcome = some o →
      ∃ t', (search.step cfg (search.run cfg (search.init cfg) acts) a).tasks[i]? = some t' ∧
        t'.path = t.path ∧ t'.pc.outcome = some o) ∧
    ((search.run cfg (search.init cfg) acts).progress.map progressValue).Pairwise
      (fun v w => v ≤ w) ∧
    (∀ v ∈ (search.run cfg (search.init cfg) acts).progress.map progressValue, v ≤ 1) ∧
    (∀ p ∈ (search.run cfg (search.init cfg) acts).progress,
      p.2 = cfg.paths.length ∧ p.1 ≤ cfg.paths.length) := by
  have hc := countInv_reach cfg acts
  have hle := counters_le_total cfg _ hc
  obtain ⟨p1, p2, p3⟩ := progress_values cfg _ hc
  exact ⟨le_trans hle.1 hle.2, step_counters cfg _ a, ⟨hc.finished_eq, hc.errCount_eq, hle.2⟩,
    fun i t o ht ho => step_outcome_stable cfg _ a i t o ht ho, p1, p2, p3⟩

/-- Witness of C6, scenario A: the three progress values are 1/3, 2/3 and 1,
and the first goroutine, over with `hashed`, stays so when the window is
closed. -/
theorem C6_counters_bounded_progress_monotone_witness :
    (search.run scenarioA (search.init scenarioA) scenarioA.schedule).progress =
      [(1, 3), (2, 3), (3, 3)] ∧
    (search.run scenarioA (search.init scenarioA) scenarioA.schedule).tasks[0]? =
      some { path := "/r/a", pc := .exited .hashed } ∧
    (∃ t', (search.step scenarioA
        (search.run scenarioA (search.init scenarioA) scenarioA.schedule) .cancel).tasks[0]? =
          some t' ∧
      t'.path = "/r/a" ∧ t'.pc.outcome = some .hashed) ∧
    (search.run scenarioA (search.init scenarioA) scenarioA.schedule).finished +
      (search.run scenarioA (search.init scenarioA) scenarioA.schedule).errCount ≤
        scenarioA.paths.length :=
  have h := C6_counters_bounded_progress_monotone scenarioA scenarioA.schedule .cancel
  ⟨by rw [scenarioA_final]; rfl, by rw [scenarioA_final]; rfl,
    h.2.2.2.1 0 { path := "/r/a", pc := .exited .hashed } .hashed
      (by rw [scenarioA_final]; rfl) rfl,
    h.1⟩

/-- C9: in every reachable state of a search, for every capacity of the
channel and every interleaving, the goroutines that hold an admission slot
(started and not yet past `<-guard`) are as many as the tokens in the channel,
and at most `routineCount`. -/
theorem C9_slots_within_capacity (cfg : Config) (acts : List Action) :
    (search.run cfg (search.init cfg) acts).tasks.countP (fun t => t.pc.holdsSlot) =
      (search.run cfg (search.init cfg) acts).guard ∧
    (search.run cfg (search.init cfg) acts).guard ≤ cfg.routineCount ∧
    (search.run cfg (search.init cfg) acts).tasks.countP (fun t => t.pc.holdsSlot) ≤
      cfg.routineCount := by
  have hc := countInv_reach cfg acts
  exact ⟨hc.guard_eq.symm, hc.guard_le, hc.guard_eq ▸ hc.guard_le⟩

end Duplicut
